import Mathlib

/-!
Verification of the TenderEdge post-award intelligence engine
(`post_award_agent.py`) against its natural-language specification.

The analytical core is shallowly embedded below:
* strings are modelled as Lean `String`s over the ASCII fragment
  (the Python regexes `\w`, `\s` and the case maps `str.lower`,
  `str.title` are modelled for ASCII, which covers every character class
  the engine's own regexes distinguish);
* Python `float` arithmetic is idealised as exact rational arithmetic (`ℚ`);
  `round` (banker's rounding) is modelled exactly on `ℚ`;
* the SQLite store is modelled as a list of rows; SQL filters, `COUNT`,
  `AVG`, `MIN`, `MAX`, `COUNT(DISTINCT ...)` are translated to list
  operations preserving the code's semantics (aggregates ignore NULLs);
* Python dicts keep insertion order, so dict-based grouping is modelled by
  association lists that append new keys at the end.
-/

/-! ## ASCII character model -/

/-- The 26 lowercase ASCII letters. -/
def asciiLower : List Char :=
  ['a','b','c','d','e','f','g','h','i','j','k','l','m',
   'n','o','p','q','r','s','t','u','v','w','x','y','z']

/-- The 26 uppercase ASCII letters. -/
def asciiUpper : List Char :=
  ['A','B','C','D','E','F','G','H','I','J','K','L','M',
   'N','O','P','Q','R','S','T','U','V','W','X','Y','Z']

/-- The 10 ASCII digits. -/
def asciiDigits : List Char :=
  ['0','1','2','3','4','5','6','7','8','9']

/-- The characters matched by the regex class `\w` (ASCII): `[a-zA-Z0-9_]`. -/
def wordChars : List Char := asciiLower ++ asciiUpper ++ asciiDigits ++ ['_']

/-- Membership in the regex class `\w`. -/
def isWordChar (c : Char) : Bool := wordChars.contains c

/-- The characters matched by the regex class `\s` (ASCII):
space, tab, newline, carriage return, vertical tab, form feed. -/
def spaceChars : List Char := [' ', '\t', '\n', '\r', '\x0b', '\x0c']

/-- Membership in the regex class `\s`. -/
def isSpaceChar (c : Char) : Bool := spaceChars.contains c

/-- ASCII letter (cased character, as `str.title` sees words). -/
def isAsciiAlpha (c : Char) : Bool := asciiLower.contains c || asciiUpper.contains c

/-- `str.lower` on one ASCII character. -/
def pyLowerChar (c : Char) : Char :=
  if asciiUpper.contains c then Char.ofNat (c.toNat + 32) else c

/-- `str.upper` on one ASCII character (used by `str.title` at word starts). -/
def pyUpperChar (c : Char) : Char :=
  if asciiLower.contains c then Char.ofNat (c.toNat - 32) else c

/-- `str.title`: uppercase each letter that follows a non-letter, lowercase
the other letters.  The boolean argument records whether the previous
character was a letter. -/
def pyTitleAux (prevAlpha : Bool) : List Char → List Char
  | [] => []
  | c :: rest =>
    (if isAsciiAlpha c then (if prevAlpha then pyLowerChar c else pyUpperChar c) else c)
      :: pyTitleAux (isAsciiAlpha c) rest

/-! ## The three `re.sub` passes of `normalize_company_name` -/

/-- The alternatives of the suffix-stripping regex
`\b(ltd|limited|co|company|corporation|corp|inc|llc|plc|pvt|private|tanzania|tz|t\.z\.)\b`,
in source order (the regex engine tries them left to right). -/
def SUFFIX_ALTS : List (List Char) :=
  [['l','t','d'],
   ['l','i','m','i','t','e','d'],
   ['c','o'],
   ['c','o','m','p','a','n','y'],
   ['c','o','r','p','o','r','a','t','i','o','n'],
   ['c','o','r','p'],
   ['i','n','c'],
   ['l','l','c'],
   ['p','l','c'],
   ['p','v','t'],
   ['p','r','i','v','a','t','e'],
   ['t','a','n','z','a','n','i','a'],
   ['t','z'],
   ['t','.','z','.']]

/-- Word-character status of an optional character; a missing character
(string edge) counts as a non-word position. -/
def isWordCharO : Option Char → Bool
  | none => false
  | some c => isWordChar c

/-- The regex word boundary `\b` between two adjacent (optional) characters:
it holds when exactly one side is a word character. -/
def boundary (a b : Option Char) : Bool := isWordCharO a != isWordCharO b

/-- First element of a list of characters, if any. -/
def headOpt : List Char → Option Char
  | [] => none
  | c :: _ => some c

/-- Try the alternatives in order at the current position: an alternative
matches when it is a literal prefix of the remaining input and the trailing
`\b` holds between its last character and the following character.
On success, return the matched text and the remaining input. -/
def findAlt : List (List Char) → List Char → Option (List Char × List Char)
  | [], _ => none
  | a :: alts, s =>
    if a.isPrefixOf s && boundary a.getLast? (headOpt (s.drop a.length)) then
      some (a, s.drop a.length)
    else findAlt alts s

/-- One left-to-right `re.sub(pattern, '', s)` scan with pattern
`\b(alt₁|...|altₙ)\b`: at each position, if the leading `\b` holds and some
alternative matches, the match is deleted and the scan resumes after it;
otherwise the character is kept.  `prev` is the character preceding the
current position in the original string.  `fuel ≥ length of s` guarantees
termination (each step consumes at least one character). -/
def sub1Fuel : Nat → Option Char → List Char → List Char
  | 0, _, _ => []
  | _ + 1, _, [] => []
  | fuel + 1, prev, c :: rest =>
    if boundary prev (some c) then
      match findAlt SUFFIX_ALTS (c :: rest) with
      | some (a, rest') => sub1Fuel fuel (a.getLast?) rest'
      | none => c :: sub1Fuel fuel (some c) rest
    else c :: sub1Fuel fuel (some c) rest

/-- The suffix-stripping substitution
`re.sub(r'\b(ltd|limited|co|company|corporation|corp|inc|llc|plc|pvt|private|tanzania|tz|t\.z\.)\b', '', s)`. -/
def sub1 (s : List Char) : List Char := sub1Fuel s.length none s

/-- `re.sub(r'[^\w\s]', ' ', s)`: every character that is neither a word
character nor whitespace becomes a space. -/
def sub2 (s : List Char) : List Char :=
  s.map fun c => if isWordChar c || isSpaceChar c then c else ' '

/-- `re.sub(r'\s+', ' ', s)`: every maximal whitespace run becomes a single
space.  The flag records whether the previous character was whitespace. -/
def sub3Aux (prevSpace : Bool) : List Char → List Char
  | [] => []
  | c :: rest =>
    if isSpaceChar c then
      (if prevSpace then [] else [' ']) ++ sub3Aux true rest
    else c :: sub3Aux false rest

/-- Python `str.strip`: drop leading and trailing whitespace. -/
def pyStrip (s : List Char) : List Char :=
  ((s.dropWhile isSpaceChar).reverse.dropWhile isSpaceChar).reverse

/-- `normalize_company_name` from `post_award_agent.py` (lines 287-295):
`None` and the empty string map to the sentinel `"Unknown"`; otherwise the
name is lowercased, legal-entity suffixes are deleted as whole words,
punctuation becomes spaces, whitespace is collapsed and stripped, the
result is title-cased, and an empty result again maps to `"Unknown"`. -/
def normalize_company_name (name : Option String) : String :=
  match name with
  | none => "Unknown"
  | some n =>
    if n = "" then "Unknown"
    else
      let s1 := n.data.map pyLowerChar
      let s4 := pyStrip (sub3Aux false (sub2 (sub1 s1)))
      let t := pyTitleAux false s4
      if t = [] then "Unknown" else String.mk t

example : normalize_company_name (some "ABC Tech Solutions Ltd") = "Abc Tech Solutions" := by decide
example : normalize_company_name (some "Ltd") = "Unknown" := by decide
example : normalize_company_name (some "t.z.") = "T Z" := by decide
example : normalize_company_name (some "Mbeya t.z.Cement") = "Mbeya Cement" := by decide
example : normalize_company_name none = "Unknown" := by decide
example : normalize_company_name (some "") = "Unknown" := by decide
example : normalize_company_name (some "Huawei Technologies Tanzania") = "Huawei Technologies" := by decide
example : normalize_company_name (some "Unknown") = "Unknown" := by decide

/-! ## Exact rational model of Python rounding -/

/-- Floor of a rational number, computable by integer floor division. -/
def pyFloor (q : ℚ) : ℤ := q.num.fdiv q.den

/-- Python `round(x)` (banker's rounding, idealised over `ℚ`): round to the
nearest integer, ties to the even neighbour. -/
def pyRound (q : ℚ) : ℤ :=
  let f := pyFloor q
  let frac := q - (f : ℚ)
  if frac < 1/2 then f
  else if (1 : ℚ)/2 < frac then f + 1
  else if f % 2 = 0 then f else f + 1

/-- Python `round(x, d)` for `d` decimal digits, idealised over `ℚ`. -/
def roundTo (d : ℕ) (q : ℚ) : ℚ := (pyRound (q * 10 ^ d) : ℚ) / 10 ^ d

/-! ## Data model -/

/-- `AwardRecord` (dataclass, lines 73-91): one observed contract award.
Nullable numeric columns are `Option ℚ`; text columns are `String`. -/
structure AwardRecord where
  ocid : String
  tender_number : String
  tender_description : String
  pe_name : String
  pe_code : String
  winning_company : String
  contract_price : Option ℚ
  contract_currency : String
  delivery_period : String
  sector : String
  award_date : String
  source_platform : String
  tender_estimate : Option ℚ
  price_ratio : Option ℚ
  confidence_score : ℚ
  raw_json : String
deriving DecidableEq

/-- `save_award_record` (lines 399-417): `INSERT OR IGNORE` against the
`UNIQUE` column `ocid` — if a row with the same contract id already exists
the insert is ignored, otherwise the record is appended. -/
def save_award_record (db : List AwardRecord) (rec : AwardRecord) : List AwardRecord :=
  if db.any fun r => r.ocid == rec.ocid then db else db ++ [rec]

/-! ## Competitor profile rebuild (lines 542-622) -/

/-- Python string comparison (`>`/`<` on `str`): lexicographic by code point. -/
def charListLt : List Char → List Char → Bool
  | _, [] => false
  | [], _ :: _ => true
  | a :: as, b :: bs =>
    if a.toNat < b.toNat then true
    else if b.toNat < a.toNat then false
    else charListLt as bs

/-- `d[k] = d.get(k, 0) + 1` on an insertion-ordered dict: update the
existing slot, or append the key with count 1. -/
def bumpCount (key : String) : List (String × Nat) → List (String × Nat)
  | [] => [(key, 1)]
  | (k, n) :: rest => if k == key then (k, n + 1) :: rest else (k, n) :: bumpCount key rest

/-- The in-progress aggregate for one competitor (the per-company dict
built in the first loop of `rebuild_competitor_profiles`). -/
structure CompAgg where
  company_name : String
  total_wins : Nat
  primary_sectors : List (String × Nat)
  pe_relationships : List (String × Nat)
  prices : List ℚ
  ratios : List ℚ
  last_win_date : String
deriving DecidableEq

/-- The fresh aggregate created when a company is first seen. -/
def emptyCompAgg (name : String) : CompAgg := ⟨name, 0, [], [], [], [], ""⟩

/-- `if x: l.append(x)` for a nullable numeric column: Python truthiness
skips both `None` and `0`. -/
def appendIfTruthy (x : Option ℚ) (l : List ℚ) : List ℚ :=
  match x with
  | some v => if v = 0 then l else l ++ [v]
  | none => l

/-- The body of the aggregation loop for one award record (lines 572-581). -/
def compUpdate (a : AwardRecord) (p : CompAgg) : CompAgg :=
  { p with
    total_wins := p.total_wins + 1
    primary_sectors := bumpCount a.sector p.primary_sectors
    pe_relationships := bumpCount a.pe_name p.pe_relationships
    prices := appendIfTruthy a.contract_price p.prices
    ratios := appendIfTruthy a.price_ratio p.ratios
    last_win_date :=
      if charListLt p.last_win_date.data a.award_date.data then a.award_date
      else p.last_win_date }

/-- Apply `f` to the (single) aggregate stored under `name`. -/
def updateFirst (name : String) (f : CompAgg → CompAgg) : List CompAgg → List CompAgg
  | [] => []
  | p :: rest =>
    if p.company_name == name then f p :: rest else p :: updateFirst name f rest

/-- One iteration of `for a in awards:` — group under the normalized
company name, creating the dict entry on first sight. -/
def compStep (profiles : List CompAgg) (a : AwardRecord) : List CompAgg :=
  let name := normalize_company_name (some a.winning_company)
  let base :=
    if profiles.any (fun p => p.company_name == name) then profiles
    else profiles ++ [emptyCompAgg name]
  updateFirst name (compUpdate a) base

/-- The whole grouping pass over the (already SQL-filtered) award rows. -/
def compAggregate (awards : List AwardRecord) : List CompAgg :=
  awards.foldl compStep []

/-- `max((p["total_wins"] for p in profiles.values()), default=1)`. -/
def totalWinsMax (profiles : List CompAgg) : Nat :=
  match profiles.map (fun p => p.total_wins) with
  | [] => 1
  | w :: ws => ws.foldl max w

/-- `min` of a list of rationals (`min(prices)`), `none` when empty. -/
def listMinQ : List ℚ → Option ℚ
  | [] => none
  | x :: xs => some (xs.foldl min x)

/-- `max` of a list of rationals (`max(prices)`), `none` when empty. -/
def listMaxQ : List ℚ → Option ℚ
  | [] => none
  | x :: xs => some (xs.foldl max x)

/-- The rebuilt competitor profile row as written by the upsert. -/
structure CompetitorProfile where
  company_name : String
  total_wins : Nat
  primary_sectors : List (String × Nat)
  pe_relationships : List (String × Nat)
  price_range_min : Option ℚ
  price_range_max : Option ℚ
  avg_price_ratio : Option ℚ
  threat_score : ℚ
  last_win_date : String
deriving DecidableEq

/-- The second loop of `rebuild_competitor_profiles` (lines 586-617):
threat score `min(1.0, total_wins / total_wins_max)` rounded to 3 digits,
price range, and the 4-digit rounded mean ratio. -/
def finalizeComp (m : Nat) (p : CompAgg) : CompetitorProfile :=
  { company_name := p.company_name
    total_wins := p.total_wins
    primary_sectors := p.primary_sectors
    pe_relationships := p.pe_relationships
    price_range_min := listMinQ p.prices
    price_range_max := listMaxQ p.prices
    avg_price_ratio :=
      match p.ratios with
      | [] => none
      | _ => some (roundTo 4 (p.ratios.sum / (p.ratios.length : ℚ)))
    threat_score := roundTo 3 (min 1 ((p.total_wins : ℚ) / (m : ℚ)))
    last_win_date := p.last_win_date }

/-- `rebuild_competitor_profiles` (lines 542-622).  The SQL source filter is
`WHERE winning_company IS NOT NULL AND winning_company != 'Unknown'`
(the model's `winning_company` is a non-null string, so only the literal
`'Unknown'` test remains). -/
def rebuild_competitor_profiles (records : List AwardRecord) : List CompetitorProfile :=
  let awards := records.filter fun r => r.winning_company != "Unknown"
  let profiles := compAggregate awards
  profiles.map (finalizeComp (totalWinsMax profiles))

/-! ## PE profile rebuild (lines 625-717) -/

/-- The in-progress aggregate for one procuring entity. -/
structure PEAgg where
  pe_name : String
  pe_code : String
  awards : Nat
  sectors : List (String × Nat)
  prices : List ℚ
  ratios : List ℚ
  winners : List (String × Nat)
  months : List Nat
deriving DecidableEq

/-- `int(a["award_date"][5:7])`: the two month digits of an ISO date. -/
def monthOf (s : String) : Nat :=
  let digitVal : Char → Nat := fun c => c.toNat - 48
  10 * digitVal (s.data.getD 5 '0') + digitVal (s.data.getD 6 '0')

/-- The body of the PE aggregation loop for one record (lines 652-661). -/
def peUpdate (a : AwardRecord) (d : PEAgg) : PEAgg :=
  { d with
    awards := d.awards + 1
    sectors := bumpCount a.sector d.sectors
    prices := appendIfTruthy a.contract_price d.prices
    ratios := appendIfTruthy a.price_ratio d.ratios
    winners := bumpCount a.winning_company d.winners
    months :=
      if a.award_date != "" && 7 ≤ a.award_date.length then d.months ++ [monthOf a.award_date]
      else d.months }

/-- Fresh PE aggregate on first sight (`"pe_code": a["pe_code"] or ""`). -/
def emptyPEAgg (a : AwardRecord) : PEAgg :=
  ⟨a.pe_name, a.pe_code, 0, [], [], [], [], []⟩

/-- Apply `f` to the (single) aggregate stored under `name`. -/
def updateFirstPE (name : String) (f : PEAgg → PEAgg) : List PEAgg → List PEAgg
  | [] => []
  | d :: rest =>
    if d.pe_name == name then f d :: rest else d :: updateFirstPE name f rest

/-- One iteration of `for a in awards:` of the PE rebuild. -/
def peStep (data : List PEAgg) (a : AwardRecord) : List PEAgg :=
  let base :=
    if data.any (fun d => d.pe_name == a.pe_name) then data
    else data ++ [emptyPEAgg a]
  updateFirstPE a.pe_name (peUpdate a) base

/-- `n[k] = n.get(k, 0) + 1` for the month histogram. -/
def bumpCountNat (key : Nat) : List (Nat × Nat) → List (Nat × Nat)
  | [] => [(key, 1)]
  | (k, n) :: rest => if k == key then (k, n + 1) :: rest else (k, n) :: bumpCountNat key rest

/-- The rebuilt PE profile row as written by the upsert; the same shape
serves as the `pe_profiles` table row read back by `calculate_tps`
(`top_winners` and `budget_cycle_months` are stored as JSON lists). -/
structure PEProfileRow where
  pe_name : String
  pe_code : String
  total_awards : Nat
  avg_contract_value : Option ℚ
  preferred_sectors : List (String × Nat)
  avg_price_ratio : ℚ
  price_sensitivity : String
  top_winners : List String
  budget_cycle_months : List Nat
  confidence_score : ℚ
deriving DecidableEq

/-- The per-PE finalisation (lines 663-712): 4-digit rounded mean ratio with
default `0.93`, sensitivity thresholds `< 0.88` / `> 0.96`, stable top-5
winners by descending count, top-3 peak months, `min(1, awards/20)`. -/
def finalizePE (d : PEAgg) : PEProfileRow :=
  let avg_r : ℚ :=
    match d.ratios with
    | [] => 0.93
    | _ => roundTo 4 (d.ratios.sum / (d.ratios.length : ℚ))
  let sensitivity := if avg_r < 0.88 then "HIGH" else if 0.96 < avg_r then "LOW" else "MEDIUM"
  let top := (d.winners.mergeSort fun x y => decide (y.2 ≤ x.2)).take 5
  let month_counts := d.months.foldl (fun acc m => bumpCountNat m acc) []
  let peak := ((month_counts.mergeSort fun x y => decide (y.2 ≤ x.2)).take 3).map (fun x => x.1)
  { pe_name := d.pe_name
    pe_code := d.pe_code
    total_awards := d.awards
    avg_contract_value :=
      match d.prices with
      | [] => none
      | _ => some ((pyRound (d.prices.sum / (d.prices.length : ℚ)) : ℚ))
    preferred_sectors := d.sectors
    avg_price_ratio := avg_r
    price_sensitivity := sensitivity
    top_winners := top.map (fun x => x.1)
    budget_cycle_months := peak
    confidence_score := min 1 ((d.awards : ℚ) / 20) }

/-- `rebuild_pe_profiles` (lines 625-717).  The SQL source filter
`WHERE pe_name IS NOT NULL` is vacuous for the model's non-null strings. -/
def rebuild_pe_profiles (records : List AwardRecord) : List PEProfileRow :=
  (records.foldl peStep []).map finalizePE

/-! ## Tender Prediction Score (lines 961-1123) -/

/-- `TPS_WEIGHTS` (lines 62-70). -/
def TPS_WEIGHTS : List (String × ℚ) :=
  [("capability_match", 0.25),
   ("historical_win_rate", 0.20),
   ("pe_favorability", 0.15),
   ("price_competitiveness", 0.15),
   ("competitor_density", 0.10),
   ("compliance_readiness", 0.10),
   ("seasonal_timing", 0.05)]

/-- The seven factor scores computed by `calculate_tps` (`scores` dict). -/
structure FactorScores where
  capability_match : ℚ
  historical_win_rate : ℚ
  pe_favorability : ℚ
  price_competitiveness : ℚ
  competitor_density : ℚ
  compliance_readiness : ℚ
  seasonal_timing : ℚ
deriving DecidableEq

/-- The factor scores in the fixed order of `TPS_WEIGHTS`. -/
def factorVec (s : FactorScores) : List ℚ :=
  [s.capability_match, s.historical_win_rate, s.pe_favorability,
   s.price_competitiveness, s.competitor_density, s.compliance_readiness,
   s.seasonal_timing]

/-- `tps_raw = sum(scores[factor] * weight for factor, weight in TPS_WEIGHTS.items())`. -/
def tpsRaw (s : FactorScores) : ℚ :=
  0.25 * s.capability_match + 0.20 * s.historical_win_rate +
  0.15 * s.pe_favorability + 0.15 * s.price_competitiveness +
  0.10 * s.competitor_density + 0.10 * s.compliance_readiness +
  0.05 * s.seasonal_timing

/-- The confidence label attached to a TPS value (lines 1092-1103). -/
def tpsLabel (n : ℤ) : String :=
  if 75 ≤ n then "HIGH"
  else if 55 ≤ n then "MEDIUM"
  else if 35 ≤ n then "LOW"
  else "VERY LOW"

/-- The recommended action attached to a TPS value (lines 1092-1103). -/
def tpsAction (n : ℤ) : String :=
  if 75 ≤ n then "Strongly recommended — bid on this tender"
  else if 55 ≤ n then "Worth bidding — strengthen pricing and compliance"
  else if 35 ≤ n then "Proceed with caution — significant competition"
  else "Not recommended — better opportunities available"

/-- `MIN_DATA_FOR_TPS` (line 59). -/
def MIN_DATA_FOR_TPS : Nat := 50

/-- The insufficient-data message of the TPS gate (line 988). -/
def tpsGateMessage (total : Nat) : String :=
  "TPS requires " ++ toString MIN_DATA_FOR_TPS ++
  " award records. Currently: " ++ toString total ++ ". Keep collecting data."

/-- Python `needle in hay` on strings: substring test. -/
def subStr (needle : List Char) : List Char → Bool
  | [] => needle.isEmpty
  | c :: t => needle.isPrefixOf (c :: t) || subStr needle t

/-- The price-competitiveness factor (lines 1039-1055), given the price
ratios of the tender's sector (`WHERE sector = ? AND price_ratio IS NOT
NULL`) and the company's typical ratio.  `if price_data and
price_data["avg_r"]:` is a Python truthiness test: the formula applies only
when the sector mean exists and is nonzero; `span = (max_r - min_r) or 0.1`
falls back to `0.1` when the span is zero. -/
def priceCompFactor (ratios : List ℚ) (our_typical : ℚ) : ℚ :=
  match ratios with
  | [] => 0.60
  | r :: rs =>
    let avg := (r :: rs).sum / ((r :: rs).length : ℚ)
    if avg = 0 then 0.60
    else
      let mx := rs.foldl max r
      let mn := rs.foldl min r
      let span := if mx - mn = 0 then 0.1 else mx - mn
      max 0.2 (1 - |our_typical - avg| / span)

/-- The tender attributes read by `calculate_tps`. -/
structure TenderInfo where
  sector : String
  procuring_entity : String
deriving DecidableEq

/-- The caller-supplied company profile dict: `.get` defaults are applied in
`calculate_tps` (`compliance_score` defaults to `0.7`,
`typical_price_ratio` to `0.92`). -/
structure CompanyInput where
  name : String
  sectors : List String
  compliance_score : Option ℚ
  typical_price_ratio : Option ℚ
deriving DecidableEq

/-- The database state read by `calculate_tps`: the `award_records` table
and the `pe_profiles` table. -/
structure DBState where
  award_records : List AwardRecord
  pe_profiles : List PEProfileRow
deriving DecidableEq

/-- The result dict of `calculate_tps` (gate branch: `tps = None` plus a
message; scoring branch: integer score, label, action). -/
structure TPSResult where
  tps : Option ℤ
  label : String
  action : String
  message : String
  data_points : Nat
deriving DecidableEq

/-- Factor 1, capability match (lines 998-1005): `0.85` when the tender's
sector is among the company's sectors, `0.60` when some company sector is a
substring of the tender sector, else `0.30`. -/
def capabilityFactor (company : CompanyInput) (sector : String) : ℚ :=
  if company.sectors.contains sector then 0.85
  else if company.sectors.any (fun s => subStr s.data sector.data) then 0.60
  else 0.30

/-- Factor 2, historical win rate (lines 1007-1019), from the sector-wide
record count. -/
def historicalFactor (sectorCount : Nat) : ℚ :=
  if 5 < sectorCount then min 0.85 (0.40 + (sectorCount : ℚ) / 100) else 0.45

/-- Factor 3, PE favorability (lines 1021-1036), from the buyer's
`pe_profiles` row (if any). -/
def peFavorabilityFactor (peRow : Option PEProfileRow) (company : CompanyInput) : ℚ :=
  match peRow with
  | some row =>
    (if (row.top_winners.map fun w => normalize_company_name (some w)).contains
          (normalize_company_name (some company.name))
     then 0.90 else 0.45) * (0.5 + row.confidence_score * 0.5)
  | none => 0.50

/-- Factor 5, competitor density (lines 1057-1070), from the distinct
winner count of the sector. -/
def densityFactor (cnt : Nat) : ℚ :=
  if cnt ≤ 3 then 0.85 else if cnt ≤ 8 then 0.65 else if cnt ≤ 15 then 0.45 else 0.30

/-- Factor 7, seasonal timing (lines 1077-1083), from the buyer's peak
months and the current calendar month. -/
def seasonalFactor (peRow : Option PEProfileRow) (currentMonth : Nat) : ℚ :=
  match peRow with
  | some row => if row.budget_cycle_months.contains currentMonth then 0.85 else 0.50
  | none => 0.60

/-- The seven factor scores computed by `calculate_tps` beyond the gate
(the `scores` dict, lines 996-1083). -/
def tpsFactorScores (db : DBState) (tender : TenderInfo) (company : CompanyInput)
    (currentMonth : Nat) : FactorScores :=
  let sectorRecords := db.award_records.filter fun r => r.sector == tender.sector
  let peRow := db.pe_profiles.find? fun p => p.pe_name == tender.procuring_entity
  { capability_match := capabilityFactor company tender.sector
    historical_win_rate := historicalFactor sectorRecords.length
    pe_favorability := peFavorabilityFactor peRow company
    price_competitiveness :=
      priceCompFactor (sectorRecords.filterMap fun r => r.price_ratio)
        ((company.typical_price_ratio).getD 0.92)
    competitor_density :=
      densityFactor ((sectorRecords.map fun r => r.winning_company).dedup).length
    compliance_readiness := (company.compliance_score).getD 0.7
    seasonal_timing := seasonalFactor peRow currentMonth }

/-- `calculate_tps` (lines 961-1123).  `currentMonth` stands for
`datetime.now().month`, an input of the computation. -/
def calculate_tps (db : DBState) (tender : TenderInfo) (company : CompanyInput)
    (currentMonth : Nat) : TPSResult :=
  let total := db.award_records.length
  if total < MIN_DATA_FOR_TPS then
    { tps := none, label := "", action := "", message := tpsGateMessage total,
      data_points := total }
  else
    let scores := tpsFactorScores db tender company currentMonth
    let tps := pyRound (tpsRaw scores * 100)
    { tps := some tps, label := tpsLabel tps, action := tpsAction tps, message := "",
      data_points := total }

/-! ## Facts about the rounding model -/

theorem pyFloor_eq (q : ℚ) : pyFloor q = ⌊q⌋ := by
  rw [pyFloor, Int.fdiv_eq_ediv _ (by positivity : (0:ℤ) ≤ (q.den : ℤ)), Rat.floor_def]

theorem pyRound_le {q : ℚ} {n : ℤ} (h : q ≤ (n : ℚ)) : pyRound q ≤ n := by
  have hf : ⌊q⌋ ≤ n := by
    have := Int.floor_le_floor h
    simpa using this
  unfold pyRound
  simp only [pyFloor_eq]
  by_cases h1 : q - (⌊q⌋ : ℚ) < 1/2
  · rw [if_pos h1]; exact hf
  · have hq : (⌊q⌋ : ℚ) + 1/2 ≤ q := by linarith
    have hlt : (⌊q⌋ : ℚ) < (n : ℚ) := by linarith
    have hfn : ⌊q⌋ < n := by exact_mod_cast hlt
    by_cases h2 : (1:ℚ)/2 < q - (⌊q⌋ : ℚ)
    · simp only [h1, if_false, h2, if_true]
      omega
    · simp only [h1, if_false, h2, if_false]
      by_cases h3 : ⌊q⌋ % 2 = 0 <;> simp [h3] <;> omega

theorem le_pyRound {q : ℚ} {n : ℤ} (h : (n : ℚ) ≤ q) : n ≤ pyRound q := by
  have hf : n ≤ ⌊q⌋ := by
    have := Int.floor_le_floor h
    simpa using this
  unfold pyRound
  simp only [pyFloor_eq]
  by_cases h1 : q - (⌊q⌋ : ℚ) < 1/2
  · rw [if_pos h1]; exact hf
  · by_cases h2 : (1:ℚ)/2 < q - (⌊q⌋ : ℚ)
    · simp only [h1, if_false, h2, if_true]
      omega
    · simp only [h1, if_false, h2, if_false]
      by_cases h3 : ⌊q⌋ % 2 = 0 <;> simp [h3] <;> omega

theorem pyRound_intCast (n : ℤ) : pyRound ((n : ℚ)) = n := by
  unfold pyRound
  simp only [pyFloor_eq, Int.floor_intCast]
  norm_num

theorem roundTo_nonneg {q : ℚ} (d : ℕ) (h0 : 0 ≤ q) : 0 ≤ roundTo d q := by
  unfold roundTo
  have hp : (0:ℚ) < 10 ^ d := by positivity
  have hl : (0 : ℤ) ≤ pyRound (q * 10 ^ d) :=
    le_pyRound (by push_cast; nlinarith)
  have : (0:ℚ) ≤ (pyRound (q * 10 ^ d) : ℚ) := by exact_mod_cast hl
  positivity

theorem roundTo_le_one {q : ℚ} (d : ℕ) (h1 : q ≤ 1) : roundTo d q ≤ 1 := by
  unfold roundTo
  have hp : (0:ℚ) < 10 ^ d := by positivity
  have hu : pyRound (q * 10 ^ d) ≤ ((10 ^ d : ℤ) : ℤ) :=
    pyRound_le (by push_cast; nlinarith)
  rw [div_le_one hp]
  exact_mod_cast hu

theorem roundTo_one (d : ℕ) : roundTo d 1 = 1 := by
  unfold roundTo
  rw [one_mul, show ((10:ℚ) ^ d) = (((10:ℤ) ^ d : ℤ) : ℚ) by push_cast; ring,
    pyRound_intCast]
  have hp : ((((10:ℤ)) ^ d : ℤ) : ℚ) ≠ 0 := by positivity
  field_simp

/-! ## C3: weight closure and label bands -/

/-- Every factor score lies in `[0, 1]`. -/
def ScoresIn01 (s : FactorScores) : Prop :=
  (0 ≤ s.capability_match ∧ s.capability_match ≤ 1) ∧
  (0 ≤ s.historical_win_rate ∧ s.historical_win_rate ≤ 1) ∧
  (0 ≤ s.pe_favorability ∧ s.pe_favorability ≤ 1) ∧
  (0 ≤ s.price_competitiveness ∧ s.price_competitiveness ≤ 1) ∧
  (0 ≤ s.competitor_density ∧ s.competitor_density ≤ 1) ∧
  (0 ≤ s.compliance_readiness ∧ s.compliance_readiness ≤ 1) ∧
  (0 ≤ s.seasonal_timing ∧ s.seasonal_timing ≤ 1)

/-- **C3.** The seven fixed TPS weights sum to exactly 1; the weighted sum
(`tpsRaw`, the quantity computed before multiplying by 100 and rounding) of
any factor-score vector in `[0,1]^7` lies in `[0,1]`; and the four output
labels HIGH (`tps ≥ 75`), MEDIUM (`≥ 55`), LOW (`≥ 35`), VERY LOW (else)
partition the integer range `[0,100]` with no gaps or overlaps. -/
theorem C3_tps_weight_closure_and_label_partition :
    ((TPS_WEIGHTS.map fun w => w.2).sum = 1) ∧
    (∀ s : FactorScores,
      tpsRaw s = (((TPS_WEIGHTS.map fun w => w.2).zipWith (· * ·) (factorVec s)).sum)) ∧
    (∀ s : FactorScores, ScoresIn01 s → 0 ≤ tpsRaw s ∧ tpsRaw s ≤ 1) ∧
    (∀ n : ℤ, 0 ≤ n → n ≤ 100 →
      (tpsLabel n = "HIGH" ↔ 75 ≤ n ∧ n ≤ 100) ∧
      (tpsLabel n = "MEDIUM" ↔ 55 ≤ n ∧ n ≤ 74) ∧
      (tpsLabel n = "LOW" ↔ 35 ≤ n ∧ n ≤ 54) ∧
      (tpsLabel n = "VERY LOW" ↔ 0 ≤ n ∧ n ≤ 34)) := by
  refine ⟨by norm_num [TPS_WEIGHTS], fun s => ?_, fun s hs => ?_, fun n h0 h100 => ?_⟩
  · simp [TPS_WEIGHTS, factorVec, tpsRaw]
    ring
  · obtain ⟨⟨a0, a1⟩, ⟨b0, b1⟩, ⟨c0, c1⟩, ⟨d0, d1⟩, ⟨e0, e1⟩, ⟨f0, f1⟩, ⟨g0, g1⟩⟩ := hs
    unfold tpsRaw
    constructor <;> nlinarith
  · unfold tpsLabel
    split_ifs with h1 h2 h3 <;>
      refine ⟨?_, ?_, ?_, ?_⟩ <;> constructor <;> intro hx <;>
      first
        | rfl
        | omega
        | (exact absurd hx (by decide))

/-- Witness for C3 at the all-ones score vector and `tps = 60`. -/
theorem C3_witness :
    ((0 : ℚ) ≤ tpsRaw ⟨1, 1, 1, 1, 1, 1, 1⟩ ∧ tpsRaw ⟨1, 1, 1, 1, 1, 1, 1⟩ ≤ 1) ∧
    (tpsLabel 60 = "MEDIUM" ↔ 55 ≤ (60 : ℤ) ∧ (60 : ℤ) ≤ 74) :=
  ⟨C3_tps_weight_closure_and_label_partition.2.2.1 ⟨1, 1, 1, 1, 1, 1, 1⟩
      (by simp [ScoresIn01]),
   (C3_tps_weight_closure_and_label_partition.2.2.2 60 (by decide) (by decide)).2.1⟩

/-! ## Bounds for the seven factors -/

theorem foldl_min_le_init (l : List ℚ) (a : ℚ) : l.foldl min a ≤ a := by
  induction l generalizing a with
  | nil => simp
  | cons x xs ih => exact le_trans (ih (min a x)) (min_le_left a x)

theorem init_le_foldl_max (l : List ℚ) (a : ℚ) : a ≤ l.foldl max a := by
  induction l generalizing a with
  | nil => simp
  | cons x xs ih => exact le_trans (le_max_left a x) (ih (max a x))

theorem priceCompFactor_mem01 (ratios : List ℚ) (t : ℚ) :
    0 ≤ priceCompFactor ratios t ∧ priceCompFactor ratios t ≤ 1 := by
  match ratios with
  | [] => simp only [priceCompFactor]; norm_num
  | r :: rs =>
    simp only [priceCompFactor]
    by_cases havg : (r :: rs).sum / ((r :: rs).length : ℚ) = 0
    · rw [if_pos havg]; norm_num
    · rw [if_neg havg]
      have hmn : rs.foldl min r ≤ r := foldl_min_le_init rs r
      have hmx : r ≤ rs.foldl max r := init_le_foldl_max rs r
      have hspan : (0:ℚ) < (if rs.foldl max r - rs.foldl min r = 0 then 0.1
          else rs.foldl max r - rs.foldl min r) := by
        by_cases hz : rs.foldl max r - rs.foldl min r = 0
        · rw [if_pos hz]; norm_num
        · rw [if_neg hz]
          have : rs.foldl min r ≤ rs.foldl max r := le_trans hmn hmx
          rcases lt_or_eq_of_le this with hlt | heq
          · linarith
          · exact absurd (by linarith) hz
      constructor
      · exact le_trans (by norm_num) (le_max_left 0.2 _)
      · refine max_le (by norm_num) ?_
        have : 0 ≤ |t - (r :: rs).sum / ((r :: rs).length : ℚ)| /
            (if rs.foldl max r - rs.foldl min r = 0 then 0.1
             else rs.foldl max r - rs.foldl min r) :=
          div_nonneg (abs_nonneg _) (le_of_lt hspan)
        linarith

theorem tpsRaw_mem01 (s : FactorScores) (hs : ScoresIn01 s) :
    0 ≤ tpsRaw s ∧ tpsRaw s ≤ 1 := by
  obtain ⟨⟨a0, a1⟩, ⟨b0, b1⟩, ⟨c0, c1⟩, ⟨d0, d1⟩, ⟨e0, e1⟩, ⟨f0, f1⟩, ⟨g0, g1⟩⟩ := hs
  unfold tpsRaw
  constructor <;> nlinarith

theorem tpsFactorScores_mem01 (db : DBState) (tender : TenderInfo)
    (company : CompanyInput) (month : Nat)
    (hconf : ∀ row ∈ db.pe_profiles, 0 ≤ row.confidence_score ∧ row.confidence_score ≤ 1)
    (hcomp : ∀ q, company.compliance_score = some q → 0 ≤ q ∧ q ≤ 1) :
    ScoresIn01 (tpsFactorScores db tender company month) := by
  have hcap : 0 ≤ capabilityFactor company tender.sector ∧
      capabilityFactor company tender.sector ≤ 1 := by
    unfold capabilityFactor; split_ifs <;> norm_num
  have hhist : ∀ n : Nat, 0 ≤ historicalFactor n ∧ historicalFactor n ≤ 1 := by
    intro n
    unfold historicalFactor
    split_ifs
    · constructor
      · refine le_min (by norm_num) ?_
        positivity
      · exact le_trans (min_le_left _ _) (by norm_num)
    · norm_num
  have hpe : ∀ peRow : Option PEProfileRow,
      (∀ row, peRow = some row → row ∈ db.pe_profiles) →
      0 ≤ peFavorabilityFactor peRow company ∧ peFavorabilityFactor peRow company ≤ 1 := by
    intro peRow hmem
    match peRow with
    | none => simp only [peFavorabilityFactor]; norm_num
    | some row =>
      obtain ⟨hc0, hc1⟩ := hconf row (hmem row rfl)
      simp only [peFavorabilityFactor]
      split_ifs <;> constructor <;> nlinarith
  have hdens : ∀ n : Nat, 0 ≤ densityFactor n ∧ densityFactor n ≤ 1 := by
    intro n
    unfold densityFactor; split_ifs <;> norm_num
  have hseas : ∀ peRow : Option PEProfileRow, 0 ≤ seasonalFactor peRow month ∧
      seasonalFactor peRow month ≤ 1 := by
    intro peRow
    match peRow with
    | none => simp only [seasonalFactor]; norm_num
    | some row => simp only [seasonalFactor]; split_ifs <;> norm_num
  have hcompl : 0 ≤ (company.compliance_score).getD 0.7 ∧
      (company.compliance_score).getD 0.7 ≤ 1 := by
    match hq : company.compliance_score with
    | none => norm_num [Option.getD]
    | some q => simpa [Option.getD] using hcomp q hq
  refine ⟨hcap, hhist _, ?_, priceCompFactor_mem01 _ _, hdens _, hcompl, hseas _⟩
  exact hpe _ (fun row hr => List.mem_of_find?_eq_some hr)

/-! ## C2: the data-sufficiency gate -/

/-- **C2.**  If the award-record store holds fewer than 50 records,
`calculate_tps` returns a null `tps` together with the shortfall message;
with 50 or more records it returns a non-null integer `tps` in `[0, 100]`.
The two well-formedness hypotheses say that the stored `pe_profiles`
confidence scores and the caller-supplied compliance score are themselves
in `[0, 1]`, the invariant the data model specifies for them (the PE
rebuild always writes `min(1, awards/20)`). -/
theorem C2_tps_gate (db : DBState) (tender : TenderInfo) (company : CompanyInput)
    (month : Nat)
    (hconf : ∀ row ∈ db.pe_profiles, 0 ≤ row.confidence_score ∧ row.confidence_score ≤ 1)
    (hcomp : ∀ q, company.compliance_score = some q → 0 ≤ q ∧ q ≤ 1) :
    (db.award_records.length < 50 →
      (calculate_tps db tender company month).tps = none ∧
      (calculate_tps db tender company month).message =
        tpsGateMessage db.award_records.length) ∧
    (50 ≤ db.award_records.length →
      ∃ n : ℤ, (calculate_tps db tender company month).tps = some n ∧
        0 ≤ n ∧ n ≤ 100) := by
  constructor
  · intro h
    have hlt : db.award_records.length < MIN_DATA_FOR_TPS := h
    simp only [calculate_tps]
    rw [if_pos hlt]
    exact ⟨rfl, rfl⟩
  · intro h
    have hge : ¬ db.award_records.length < MIN_DATA_FOR_TPS := by
      unfold MIN_DATA_FOR_TPS; omega
    simp only [calculate_tps]
    rw [if_neg hge]
    have hraw := tpsRaw_mem01 _ (tpsFactorScores_mem01 db tender company month hconf hcomp)
    refine ⟨pyRound (tpsRaw (tpsFactorScores db tender company month) * 100), rfl, ?_, ?_⟩
    · exact le_pyRound (by push_cast; nlinarith [hraw.1])
    · exact pyRound_le (by push_cast; nlinarith [hraw.2])

/-! ## Demo fixtures for witnesses and counterexamples -/

/-- A minimal award record for concrete test stores. -/
def demoRecord (ocid winner sector pe date : String) (price pr : Option ℚ) : AwardRecord :=
  { ocid := ocid, tender_number := "T", tender_description := "Demo",
    pe_name := pe, pe_code := "PE", winning_company := winner,
    contract_price := price, contract_currency := "TZS", delivery_period := "",
    sector := sector, award_date := date, source_platform := "NeST Tanzania",
    tender_estimate := none, price_ratio := pr, confidence_score := 1, raw_json := "" }

/-- A store with 49 award records and no PE profiles. -/
def gateDB49 : DBState :=
  ⟨List.replicate 49 (demoRecord "TZ-X" "Alpha" "Other" "PE1" "" none none), []⟩

/-- A store with 50 award records and no PE profiles. -/
def gateDB50 : DBState :=
  ⟨List.replicate 50 (demoRecord "TZ-X" "Alpha" "Other" "PE1" "" none none), []⟩

/-- A demo tender. -/
def demoTender : TenderInfo := ⟨"ICT", "Ministry of Finance"⟩

/-- A demo company profile with defaulted compliance and typical ratio. -/
def demoCompany : CompanyInput := ⟨"My Company", ["ICT"], none, none⟩

/-- Witness for C2: 49 records gate to a null score with the shortfall
message; 50 records produce a non-null score in `[0, 100]`. -/
theorem C2_witness :
    ((calculate_tps gateDB49 demoTender demoCompany 6).tps = none ∧
     (calculate_tps gateDB49 demoTender demoCompany 6).message = tpsGateMessage 49) ∧
    ((calculate_tps gateDB50 demoTender demoCompany 6).tps ≠ none ∧
     0 ≤ ((calculate_tps gateDB50 demoTender demoCompany 6).tps.getD 0) ∧
     ((calculate_tps gateDB50 demoTender demoCompany 6).tps.getD 0) ≤ 100) := by
  constructor
  · have h := (C2_tps_gate gateDB49 demoTender demoCompany 6
      (by simp [gateDB49]) (by simp [demoCompany])).1 (by simp [gateDB49])
    simpa [gateDB49] using h
  · obtain ⟨n, hn, h0, h1⟩ := (C2_tps_gate gateDB50 demoTender demoCompany 6
      (by simp [gateDB50]) (by simp [demoCompany])).2 (by simp [gateDB50])
    rw [hn]
    exact ⟨by simp, by simpa using h0, by simpa using h1⟩

/-! ## C9: duplicate ingestion is a no-op -/

/-- **C9.** Saving an `AwardRecord` whose contract id (`ocid`) already
exists in the store leaves the store unchanged: every stored row keeps all
its original field values and the record count is unchanged. -/
theorem C9_duplicate_save_noop (db : List AwardRecord) (rec : AwardRecord)
    (h : (db.any fun r => r.ocid == rec.ocid) = true) :
    save_award_record db rec = db ∧ (save_award_record db rec).length = db.length := by
  refine ⟨?_, ?_⟩ <;> simp [save_award_record, h]

/-- Witness for C9: re-ingesting contract id `TZ-A-001` with different
field values leaves the original row untouched. -/
theorem C9_witness :
    save_award_record [demoRecord "TZ-A-001" "Alpha" "ICT" "PE1" "2024-01-01" none none]
        (demoRecord "TZ-A-001" "Beta" "Medical" "PE2" "2024-05-05" none none) =
      [demoRecord "TZ-A-001" "Alpha" "ICT" "PE1" "2024-01-01" none none] :=
  (C9_duplicate_save_noop _ _ (by decide)).1

/-! ## C5: total wins account for every counted record -/

theorem sumWins_updateFirst (name : String) (a : AwardRecord) (l : List CompAgg)
    (h : (l.any fun p => p.company_name == name) = true) :
    ((updateFirst name (compUpdate a) l).map fun p => p.total_wins).sum =
      ((l.map fun p => p.total_wins).sum) + 1 := by
  induction l with
  | nil => simp at h
  | cons p rest ih =>
    by_cases hb : (p.company_name == name) = true
    · simp [updateFirst, hb, compUpdate]
      omega
    · have h' : (rest.any fun q => q.company_name == name) = true := by
        rcases (List.any_eq_true.mp h) with ⟨q, hq, hqq⟩
        rcases List.mem_cons.mp hq with rfl | hmem
        · exact absurd hqq hb
        · exact List.any_eq_true.mpr ⟨q, hmem, hqq⟩
      simp [updateFirst, hb, ih h']
      omega

theorem sumWins_compStep (l : List CompAgg) (a : AwardRecord) :
    ((compStep l a).map fun p => p.total_wins).sum =
      ((l.map fun p => p.total_wins).sum) + 1 := by
  simp only [compStep]
  by_cases hany :
      (l.any fun p => p.company_name == normalize_company_name (some a.winning_company)) = true
  · rw [if_pos hany]
    exact sumWins_updateFirst _ a l hany
  · rw [if_neg hany]
    have hmem : ((l ++ [emptyCompAgg (normalize_company_name (some a.winning_company))]).any
        fun p => p.company_name == normalize_company_name (some a.winning_company)) = true := by
      simp [List.any_append, emptyCompAgg]
    rw [sumWins_updateFirst _ a _ hmem]
    simp [emptyCompAgg]

theorem sumWins_compAggregate (awards : List AwardRecord) : ∀ init : List CompAgg,
    ((List.foldl compStep init awards).map fun p => p.total_wins).sum =
      ((init.map fun p => p.total_wins).sum) + awards.length := by
  induction awards with
  | nil => intro init; simp
  | cons a rest ih =>
    intro init
    simp only [List.foldl_cons, List.length_cons]
    rw [ih (compStep init a), sumWins_compStep]
    omega

/-- `finalizeComp` keeps the win count. -/
theorem finalizeComp_total_wins (m : Nat) (p : CompAgg) :
    (finalizeComp m p).total_wins = p.total_wins := rfl

/-- **C5.** After a competitor-profile rebuild, the sum of `total_wins`
over all rebuilt profiles equals the number of award records whose stored
winner is not the literal `"Unknown"`. -/
theorem C5_sum_total_wins_eq_counted_records (records : List AwardRecord) :
    ((rebuild_competitor_profiles records).map fun p => p.total_wins).sum =
      (records.filter fun r => r.winning_company != "Unknown").length := by
  simp only [rebuild_competitor_profiles, compAggregate, List.map_map]
  have hcomp : ((fun p => p.total_wins) ∘
      finalizeComp (totalWinsMax (List.foldl compStep []
        (records.filter fun r => r.winning_company != "Unknown")))) =
      fun p : CompAgg => p.total_wins := by
    funext p
    rfl
  rw [hcomp, sumWins_compAggregate]
  simp

/-! ## C1: threat score bounds and the maximal competitor -/

theorem nat_le_foldl_max (l : List Nat) (a : Nat) : a ≤ l.foldl max a := by
  induction l generalizing a with
  | nil => simp
  | cons x xs ih => exact le_trans (le_max_left a x) (ih (max a x))

theorem nat_mem_le_foldl_max {l : List Nat} {x : Nat} (a : Nat) (hx : x ∈ l) :
    x ≤ l.foldl max a := by
  induction l generalizing a with
  | nil => simp at hx
  | cons y ys ih =>
    rcases List.mem_cons.mp hx with rfl | hmem
    · exact le_trans (le_max_right a x) (nat_le_foldl_max ys (max a x))
    · exact ih (max a y) hmem

theorem nat_foldl_max_mem (l : List Nat) (a : Nat) : l.foldl max a = a ∨ l.foldl max a ∈ l := by
  induction l generalizing a with
  | nil => left; rfl
  | cons x xs ih =>
    rcases ih (max a x) with h | h
    · rcases max_choice a x with hm | hm
      · left; rw [List.foldl_cons, h, hm]
      · right; rw [List.foldl_cons, h, hm]; exact List.mem_cons_self x xs
    · right; exact List.mem_cons_of_mem x h

theorem le_totalWinsMax {l : List CompAgg} {p : CompAgg} (h : p ∈ l) :
    p.total_wins ≤ totalWinsMax l := by
  match l with
  | [] => simp at h
  | q :: qs =>
    simp only [totalWinsMax, List.map_cons]
    rcases List.mem_cons.mp h with rfl | hmem
    · exact nat_le_foldl_max _ _
    · exact nat_mem_le_foldl_max _ (List.mem_map_of_mem (fun r => r.total_wins) hmem)

theorem totalWinsMax_mem {l : List CompAgg} (h : l ≠ []) :
    ∃ p ∈ l, p.total_wins = totalWinsMax l := by
  match l with
  | [] => exact absurd rfl h
  | q :: qs =>
    simp only [totalWinsMax, List.map_cons]
    rcases nat_foldl_max_mem (qs.map fun r => r.total_wins) q.total_wins with hm | hm
    · exact ⟨q, List.mem_cons_self q qs, hm.symm⟩
    · obtain ⟨p, hp, hpe⟩ := List.mem_map.mp hm
      exact ⟨p, List.mem_cons_of_mem q hp, hpe⟩

theorem updateFirst_append_not_found {name : String} {l : List CompAgg}
    (f : CompAgg → CompAgg) (l₂ : List CompAgg)
    (h : (l.any fun p => p.company_name == name) = false) :
    updateFirst name f (l ++ l₂) = l ++ updateFirst name f l₂ := by
  induction l with
  | nil => simp
  | cons p rest ih =>
    simp only [List.any_cons, Bool.or_eq_false_iff] at h
    simp only [List.cons_append, updateFirst, h.1, Bool.false_eq_true, if_false]
    rw [show rest.append l₂ = rest ++ l₂ from rfl, ih h.2]

/-- The net effect of one aggregation step: update the existing slot, or
append a fresh slot updated once. -/
theorem compStep_eq (l : List CompAgg) (a : AwardRecord) :
    compStep l a =
      if (l.any fun p => p.company_name ==
            normalize_company_name (some a.winning_company)) = true
      then updateFirst (normalize_company_name (some a.winning_company)) (compUpdate a) l
      else l ++ [compUpdate a (emptyCompAgg (normalize_company_name (some a.winning_company)))] := by
  simp only [compStep]
  by_cases h : (l.any fun p => p.company_name ==
      normalize_company_name (some a.winning_company)) = true
  · rw [if_pos h, if_pos h]
  · rw [if_neg h, if_neg h,
      updateFirst_append_not_found (compUpdate a) _ (Bool.not_eq_true _ ▸ h)]
    simp [updateFirst, emptyCompAgg]

theorem mem_updateFirst {name : String} {f : CompAgg → CompAgg} {l : List CompAgg}
    {q : CompAgg} (h : q ∈ updateFirst name f l) : q ∈ l ∨ ∃ p ∈ l, q = f p := by
  induction l with
  | nil => simp [updateFirst] at h
  | cons p rest ih =>
    simp only [updateFirst] at h
    by_cases hb : (p.company_name == name) = true
    · rw [if_pos hb] at h
      rcases List.mem_cons.mp h with rfl | hmem
      · exact Or.inr ⟨p, List.mem_cons_self p rest, rfl⟩
      · exact Or.inl (List.mem_cons_of_mem p hmem)
    · rw [if_neg hb] at h
      rcases List.mem_cons.mp h with rfl | hmem
      · exact Or.inl (List.mem_cons_self q rest)
      · rcases ih hmem with hq | ⟨p', hp', hqe⟩
        · exact Or.inl (List.mem_cons_of_mem p hq)
        · exact Or.inr ⟨p', List.mem_cons_of_mem p hp', hqe⟩

/-- Every aggregate produced by the grouping pass has at least one win. -/
theorem wins_pos_compAggregate (awards : List AwardRecord) :
    ∀ p ∈ compAggregate awards, 1 ≤ p.total_wins := by
  have step : ∀ (init : List CompAgg) (a : AwardRecord),
      (∀ p ∈ init, 1 ≤ p.total_wins) → ∀ q ∈ compStep init a, 1 ≤ q.total_wins := by
    intro init a hinv q hq
    rw [compStep_eq] at hq
    by_cases h : (init.any fun p => p.company_name ==
        normalize_company_name (some a.winning_company)) = true
    · rw [if_pos h] at hq
      rcases mem_updateFirst hq with hmem | ⟨p, hp, rfl⟩
      · exact hinv q hmem
      · simp [compUpdate]
    · rw [if_neg h] at hq
      rcases List.mem_append.mp hq with hmem | hmem
      · exact hinv q hmem
      · rcases List.mem_singleton.mp hmem with rfl
        simp [compUpdate]
  have main : ∀ (awards : List AwardRecord) (init : List CompAgg),
      (∀ p ∈ init, 1 ≤ p.total_wins) →
      ∀ p ∈ List.foldl compStep init awards, 1 ≤ p.total_wins := by
    intro aw
    induction aw with
    | nil => intro init hinv; simpa using hinv
    | cons a rest ih =>
      intro init hinv
      exact ih (compStep init a) (step init a hinv)
  exact main awards [] (by simp)

/-- The stored threat score always lies in `[0, 1]`. -/
theorem threat_mem01 (w m : Nat) :
    0 ≤ roundTo 3 (min 1 ((w : ℚ) / (m : ℚ))) ∧
      roundTo 3 (min 1 ((w : ℚ) / (m : ℚ))) ≤ 1 := by
  have h0 : (0:ℚ) ≤ min 1 ((w : ℚ) / (m : ℚ)) :=
    le_min (by norm_num) (div_nonneg (by positivity) (by positivity))
  exact ⟨roundTo_nonneg 3 h0, roundTo_le_one 3 (min_le_left _ _)⟩

/-- A competitor holding the maximal win count gets threat score exactly 1. -/
theorem threat_eq_one (m : Nat) (hm : m ≠ 0) :
    roundTo 3 (min 1 ((m : ℚ) / (m : ℚ))) = 1 := by
  rw [div_self (by exact_mod_cast hm), min_self, roundTo_one]

/-- **C1 (amended).** After every competitor-profile rebuild, all threat
scores lie in `[0, 1]`; every profile holding the maximal total win count
has threat score exactly `1.0` (so ties at the maximum all receive `1.0`
— the code breaks no ties); and whenever the store holds at least one
record with a non-`"Unknown"` winner, at least one such profile exists. -/
theorem C1_threat_score_bounds_and_max (records : List AwardRecord) :
    (∀ p ∈ rebuild_competitor_profiles records,
      0 ≤ p.threat_score ∧ p.threat_score ≤ 1) ∧
    (∀ p ∈ rebuild_competitor_profiles records,
      (∀ q ∈ rebuild_competitor_profiles records, q.total_wins ≤ p.total_wins) →
        p.threat_score = 1) ∧
    ((records.filter fun r => r.winning_company != "Unknown") ≠ [] →
      ∃ p ∈ rebuild_competitor_profiles records, p.threat_score = 1) := by
  have hreb : rebuild_competitor_profiles records =
      (compAggregate (records.filter fun r => r.winning_company != "Unknown")).map
        (finalizeComp (totalWinsMax
          (compAggregate (records.filter fun r => r.winning_company != "Unknown")))) := rfl
  refine ⟨?_, ?_, ?_⟩
  · intro p hp
    rw [hreb] at hp
    obtain ⟨p', _, rfl⟩ := List.mem_map.mp hp
    simpa [finalizeComp] using threat_mem01 p'.total_wins _
  · intro p hp hmax
    rw [hreb] at hp
    obtain ⟨p', hp', rfl⟩ := List.mem_map.mp hp
    have h1 : ∀ q' ∈ compAggregate (records.filter fun r => r.winning_company != "Unknown"),
        q'.total_wins ≤ p'.total_wins := by
      intro q' hq'
      have := hmax (finalizeComp _ q') (by rw [hreb]; exact List.mem_map_of_mem _ hq')
      simpa [finalizeComp] using this
    have haggne : compAggregate (records.filter fun r => r.winning_company != "Unknown") ≠ [] := by
      intro h0
      rw [h0] at hp'
      exact absurd hp' (List.not_mem_nil p')
    obtain ⟨pm, hpm, hpmw⟩ := totalWinsMax_mem haggne
    have heq : p'.total_wins = totalWinsMax
        (compAggregate (records.filter fun r => r.winning_company != "Unknown")) :=
      le_antisymm (le_totalWinsMax hp') (hpmw ▸ h1 pm hpm)
    have hm0 : totalWinsMax
        (compAggregate (records.filter fun r => r.winning_company != "Unknown")) ≠ 0 := by
      have := wins_pos_compAggregate _ p' hp'
      omega
    simp only [finalizeComp, heq]
    exact threat_eq_one _ hm0
  · intro hne
    have haggne : compAggregate (records.filter fun r => r.winning_company != "Unknown") ≠ [] := by
      intro h0
      have hlen := sumWins_compAggregate (records.filter fun r => r.winning_company != "Unknown") []
      rw [show compAggregate (records.filter fun r => r.winning_company != "Unknown") =
          List.foldl compStep [] (records.filter fun r => r.winning_company != "Unknown")
        from rfl] at h0
      rw [h0] at hlen
      simp at hlen
      exact hne (List.length_eq_zero.mp hlen.symm)
    obtain ⟨pm, hpm, hpmw⟩ := totalWinsMax_mem haggne
    have hm0 : totalWinsMax
        (compAggregate (records.filter fun r => r.winning_company != "Unknown")) ≠ 0 := by
      have := wins_pos_compAggregate _ pm hpm
      omega
    refine ⟨finalizeComp _ pm, by rw [hreb]; exact List.mem_map_of_mem _ hpm, ?_⟩
    simp only [finalizeComp, hpmw]
    exact threat_eq_one _ hm0

/-- Two awards with two different winners: a tie at one win each. -/
def cRecA : AwardRecord := demoRecord "TZ-1" "Alpha" "ICT" "PE1" "2024-01-01" none none

/-- Second record of the tie store. -/
def cRecB : AwardRecord := demoRecord "TZ-2" "Beta" "ICT" "PE1" "2024-02-01" none none

/-- A store in which two competitors tie at the maximal win count. -/
def cStoreTie : List AwardRecord := [cRecA, cRecB]

/-- Expected aggregate for Alpha. -/
def cAggA : CompAgg := ⟨"Alpha", 1, [("ICT", 1)], [("PE1", 1)], [], [], "2024-01-01"⟩

/-- Expected aggregate for Beta. -/
def cAggB : CompAgg := ⟨"Beta", 1, [("ICT", 1)], [("PE1", 1)], [], [], "2024-02-01"⟩

/-- Expected rebuilt profile for Alpha. -/
def cProfA : CompetitorProfile :=
  ⟨"Alpha", 1, [("ICT", 1)], [("PE1", 1)], none, none, none, 1, "2024-01-01"⟩

/-- Expected rebuilt profile for Beta. -/
def cProfB : CompetitorProfile :=
  ⟨"Beta", 1, [("ICT", 1)], [("PE1", 1)], none, none, none, 1, "2024-02-01"⟩

/-- Concrete evaluation of the rebuild on the tie store. -/
theorem rebuild_cStoreTie :
    rebuild_competitor_profiles cStoreTie = [cProfA, cProfB] := by
  have hf : (cStoreTie.filter fun r => r.winning_company != "Unknown") = [cRecA, cRecB] := by
    decide
  have hagg : compAggregate [cRecA, cRecB] = [cAggA, cAggB] := by decide
  have hm : totalWinsMax [cAggA, cAggB] = 1 := by decide
  show (compAggregate (cStoreTie.filter fun r => r.winning_company != "Unknown")).map
      (finalizeComp (totalWinsMax
        (compAggregate (cStoreTie.filter fun r => r.winning_company != "Unknown")))) =
    [cProfA, cProfB]
  rw [hf, hagg, hm]
  simp only [List.map_cons, List.map_nil]
  have hth : roundTo 3 (min 1 ((1 : ℚ) / (1 : ℚ))) = 1 := by
    rw [div_one, min_self, roundTo_one]
  simp only [finalizeComp, cAggA, cAggB, cProfA, cProfB, listMinQ, listMaxQ,
    Nat.cast_one, hth]

/-- **C1 counterexample.**  On a store whose two records name two different
winners with one win each, the rebuild produces two distinct profiles whose
threat scores both equal `1.0` — refuting the claim that exactly one
profile (the max-win competitor with ties broken by first-seen order) has
threat score `1.0`. -/
theorem C1_counterexample :
    ((rebuild_competitor_profiles cStoreTie).map fun p => p.company_name) =
        ["Alpha", "Beta"] ∧
    ((rebuild_competitor_profiles cStoreTie).map fun p => p.threat_score) = [1, 1] := by
  rw [rebuild_cStoreTie]
  exact ⟨rfl, rfl⟩

/-- Witness for C1 on the tie store: the profile for Alpha is in bounds,
and — holding the maximal win count — has threat score exactly 1. -/
theorem C1_witness :
    (0 ≤ cProfA.threat_score ∧ cProfA.threat_score ≤ 1) ∧ cProfA.threat_score = 1 :=
  ⟨(C1_threat_score_bounds_and_max cStoreTie).1 cProfA
      (by rw [rebuild_cStoreTie]; simp),
   (C1_threat_score_bounds_and_max cStoreTie).2.1 cProfA
      (by rw [rebuild_cStoreTie]; simp)
      (by rw [rebuild_cStoreTie]; simp [cProfA, cProfB])⟩

/-! ## C6: which records reach which profile keys -/

/-- `compUpdate` never changes the grouping key. -/
theorem compUpdate_name (a : AwardRecord) (p : CompAgg) :
    (compUpdate a p).company_name = p.company_name := rfl

theorem updateFirst_map_name (nm : String) (f : CompAgg → CompAgg) (l : List CompAgg)
    (hf : ∀ p, (f p).company_name = p.company_name) :
    (updateFirst nm f l).map (fun p => p.company_name) =
      l.map fun p => p.company_name := by
  induction l with
  | nil => rfl
  | cons p rest ih =>
    simp only [updateFirst]
    by_cases hb : (p.company_name == nm) = true
    · rw [if_pos hb]
      simp [hf p]
    · rw [if_neg hb]
      simp [ih]

theorem mem_keys_compStep (nm : String) (l : List CompAgg) (a : AwardRecord) :
    nm ∈ (compStep l a).map (fun p => p.company_name) ↔
      nm ∈ l.map (fun p => p.company_name) ∨
        nm = normalize_company_name (some a.winning_company) := by
  rw [compStep_eq]
  by_cases h : (l.any fun p => p.company_name ==
      normalize_company_name (some a.winning_company)) = true
  · rw [if_pos h, updateFirst_map_name _ _ _ (compUpdate_name a)]
    constructor
    · exact Or.inl
    · rintro (hmem | rfl)
      · exact hmem
      · obtain ⟨p, hp, hbeq⟩ := List.any_eq_true.mp h
        exact List.mem_map.mpr ⟨p, hp, (eq_of_beq hbeq).symm ▸ rfl⟩
  · rw [if_neg h]
    simp [List.mem_append, emptyCompAgg, eq_comm, compUpdate_name]

theorem mem_keys_compAggregate (nm : String) (awards : List AwardRecord) :
    nm ∈ (compAggregate awards).map (fun p => p.company_name) ↔
      ∃ r ∈ awards, normalize_company_name (some r.winning_company) = nm := by
  have main : ∀ (aw : List AwardRecord) (init : List CompAgg),
      nm ∈ (List.foldl compStep init aw).map (fun p => p.company_name) ↔
        nm ∈ init.map (fun p => p.company_name) ∨
          ∃ r ∈ aw, normalize_company_name (some r.winning_company) = nm := by
    intro aw
    induction aw with
    | nil => intro init; simp
    | cons a rest ih =>
      intro init
      rw [List.foldl_cons, ih (compStep init a), mem_keys_compStep]
      simp only [List.mem_cons]
      constructor
      · rintro ((hmem | rfl) | ⟨r, hr, hnr⟩)
        · exact Or.inl hmem
        · exact Or.inr ⟨a, Or.inl rfl, rfl⟩
        · exact Or.inr ⟨r, Or.inr hr, hnr⟩
      · rintro (hmem | ⟨r, rfl | hr, hnr⟩)
        · exact Or.inl (Or.inl hmem)
        · exact Or.inl (Or.inr hnr.symm)
        · exact Or.inr ⟨r, hr, hnr⟩
  simpa using main awards []

/-- **C6 (amended).**  The competitor rebuild excludes exactly the records
whose *stored* winner string is the literal `"Unknown"`: dropping those
records first changes nothing.  A record whose winner merely *resolves* to
`"Unknown"` through the normalizer is **not** excluded: a profile keyed
`"Unknown"` appears precisely when some record with a non-`"Unknown"`
stored winner normalizes to `"Unknown"`. -/
theorem C6_unknown_exclusion_is_literal (records : List AwardRecord) :
    (rebuild_competitor_profiles (records.filter fun r => r.winning_company != "Unknown") =
      rebuild_competitor_profiles records) ∧
    ("Unknown" ∈ (rebuild_competitor_profiles records).map (fun p => p.company_name) ↔
      ∃ r ∈ records, r.winning_company ≠ "Unknown" ∧
        normalize_company_name (some r.winning_company) = "Unknown") := by
  constructor
  · simp only [rebuild_competitor_profiles, List.filter_filter]
    rw [show (fun r : AwardRecord =>
        (r.winning_company != "Unknown") && (r.winning_company != "Unknown")) =
        fun r : AwardRecord => r.winning_company != "Unknown"
      from funext fun r => Bool.and_self _]
  · have hmapname : (rebuild_competitor_profiles records).map (fun p => p.company_name) =
        (compAggregate (records.filter fun r => r.winning_company != "Unknown")).map
          (fun p => p.company_name) := by
      show ((compAggregate (records.filter fun r => r.winning_company != "Unknown")).map
          _).map _ = _
      rw [List.map_map]
      rfl
    rw [hmapname, mem_keys_compAggregate]
    constructor
    · rintro ⟨r, hr, hnr⟩
      obtain ⟨hmem, hne⟩ := List.mem_filter.mp hr
      exact ⟨r, hmem, by simpa using hne, hnr⟩
    · rintro ⟨r, hr, hne, hnr⟩
      exact ⟨r, List.mem_filter.mpr ⟨hr, by simpa using hne⟩, hnr⟩

/-- A record whose stored winner `"Ltd"` normalizes to `"Unknown"`. -/
def recLtd : AwardRecord := demoRecord "TZ-9" "Ltd" "ICT" "PE1" "2024-01-01" none none

/-- Expected aggregate for the `recLtd` store: keyed `"Unknown"`. -/
def cAggU : CompAgg := ⟨"Unknown", 1, [("ICT", 1)], [("PE1", 1)], [], [], "2024-01-01"⟩

/-- Concrete evaluation of the rebuild on the `recLtd` store. -/
theorem rebuild_recLtd :
    rebuild_competitor_profiles [recLtd] =
      [⟨"Unknown", 1, [("ICT", 1)], [("PE1", 1)], none, none, none, 1, "2024-01-01"⟩] := by
  have hf : (List.filter (fun r => r.winning_company != "Unknown") [recLtd]) = [recLtd] := by
    decide
  have hagg : compAggregate [recLtd] = [cAggU] := by decide
  have hm : totalWinsMax [cAggU] = 1 := by decide
  show (compAggregate (List.filter (fun r => r.winning_company != "Unknown") [recLtd])).map
      (finalizeComp (totalWinsMax
        (compAggregate (List.filter (fun r => r.winning_company != "Unknown") [recLtd])))) = _
  rw [hf, hagg, hm]
  have hth : roundTo 3 (min 1 ((1 : ℚ) / (1 : ℚ))) = 1 := by
    rw [div_one, min_self, roundTo_one]
  simp only [List.map_cons, List.map_nil, finalizeComp, cAggU, listMinQ, listMaxQ,
    Nat.cast_one, hth]

/-- **C6 counterexample.**  The record with stored winner `"Ltd"` resolves
to `"Unknown"` via the normalizer, yet it is not excluded: it contributes
its win to a rebuilt profile keyed `"Unknown"`. -/
theorem C6_counterexample :
    recLtd.winning_company ≠ "Unknown" ∧
    normalize_company_name (some recLtd.winning_company) = "Unknown" ∧
    ((rebuild_competitor_profiles [recLtd]).map fun p => (p.company_name, p.total_wins)) =
      [("Unknown", 1)] := by
  refine ⟨by decide, by decide, ?_⟩
  rw [rebuild_recLtd]
  rfl

/-! ## C7: PE price-sensitivity thresholds and the two-record scenario -/

theorem sens_iff (a : ℚ) :
    (((if a < 0.88 then "HIGH" else if 0.96 < a then "LOW" else "MEDIUM") = "HIGH") ↔
        a < 0.88) ∧
    (((if a < 0.88 then "HIGH" else if 0.96 < a then "LOW" else "MEDIUM") = "LOW") ↔
        0.96 < a) ∧
    (((if a < 0.88 then "HIGH" else if 0.96 < a then "LOW" else "MEDIUM") = "MEDIUM") ↔
        (0.88 ≤ a ∧ a ≤ 0.96)) := by
  split_ifs with h1 h2 <;> refine ⟨?_, ?_, ?_⟩ <;> constructor <;> intro hx <;>
    first
      | rfl
      | linarith
      | (exact absurd hx (by decide))
      | (constructor <;> linarith)

/-- First scenario record: buyer "Ministry of X", sector ICT, ratio 0.90. -/
def pRec1 : AwardRecord :=
  demoRecord "TZ-P1" "WinA" "ICT" "Ministry of X" "2024-03-10" none (some (Rat.divInt 9 10))

/-- Second scenario record: buyer "Ministry of X", sector ICT, ratio 0.94. -/
def pRec2 : AwardRecord :=
  demoRecord "TZ-P2" "WinB" "ICT" "Ministry of X" "2024-06-01" none (some (Rat.divInt 94 100))

/-- The scenario store of §8 of the spec. -/
def pStore : List AwardRecord := [pRec1, pRec2]

/-- Expected PE aggregate for the scenario store. -/
def pAgg : PEAgg :=
  ⟨"Ministry of X", "PE", 2, [("ICT", 2)], [], [Rat.divInt 9 10, Rat.divInt 94 100],
   [("WinA", 1), ("WinB", 1)], [3, 6]⟩

/-- Concrete evaluation of the PE rebuild on the scenario store. -/
theorem rebuild_pStore : rebuild_pe_profiles pStore = [finalizePE pAgg] := by
  have hagg : List.foldl peStep [] pStore = [pAgg] := by decide
  show (List.foldl peStep [] pStore).map finalizePE = _
  rw [hagg]
  rfl

/-- The scenario profile's rounded mean ratio is exactly 0.92. -/
theorem pAgg_avg : (finalizePE pAgg).avg_price_ratio = 0.92 := by
  show roundTo 4 (([Rat.divInt 9 10, Rat.divInt 94 100] : List ℚ).sum /
    (([Rat.divInt 9 10, Rat.divInt 94 100] : List ℚ).length : ℚ)) = 0.92
  have hsum : (([Rat.divInt 9 10, Rat.divInt 94 100] : List ℚ).sum /
      (([Rat.divInt 9 10, Rat.divInt 94 100] : List ℚ).length : ℚ)) = 0.92 := by
    simp only [List.sum_cons, List.sum_nil, List.length_cons, List.length_nil]
    norm_num [Rat.divInt_eq_div]
  rw [hsum]
  unfold roundTo
  rw [show (0.92 : ℚ) * 10 ^ 4 = ((9200 : ℤ) : ℚ) by norm_num, pyRound_intCast]
  norm_num

/-- **C7.**  For every rebuilt PE profile the sensitivity label follows the
thresholds on the profile's average price ratio — HIGH iff `< 0.88`, LOW
iff `> 0.96`, MEDIUM otherwise — and the two-record scenario (ratios 0.90
and 0.94 for buyer "Ministry of X") yields `avg_price_ratio = 0.92`,
`price_sensitivity = "MEDIUM"` and `total_awards = 2`. -/
theorem C7_pe_sensitivity_thresholds_and_scenario :
    (∀ records : List AwardRecord, ∀ p ∈ rebuild_pe_profiles records,
      (p.price_sensitivity = "HIGH" ↔ p.avg_price_ratio < 0.88) ∧
      (p.price_sensitivity = "LOW" ↔ 0.96 < p.avg_price_ratio) ∧
      (p.price_sensitivity = "MEDIUM" ↔
        (0.88 ≤ p.avg_price_ratio ∧ p.avg_price_ratio ≤ 0.96))) ∧
    ((rebuild_pe_profiles pStore).map
        (fun p => (p.pe_name, p.avg_price_ratio, p.price_sensitivity, p.total_awards)) =
      [("Ministry of X", (0.92 : ℚ), "MEDIUM", 2)]) := by
  constructor
  · intro records p hp
    obtain ⟨d, _, rfl⟩ := List.mem_map.mp hp
    have hsens : (finalizePE d).price_sensitivity =
        (if (finalizePE d).avg_price_ratio < 0.88 then "HIGH"
         else if 0.96 < (finalizePE d).avg_price_ratio then "LOW" else "MEDIUM") := rfl
    rw [hsens]
    exact sens_iff _
  · rw [rebuild_pStore]
    have hname : (finalizePE pAgg).pe_name = "Ministry of X" := rfl
    have htot : (finalizePE pAgg).total_awards = 2 := rfl
    have hsens : (finalizePE pAgg).price_sensitivity = "MEDIUM" := by
      have h : (finalizePE pAgg).price_sensitivity =
          (if (finalizePE pAgg).avg_price_ratio < 0.88 then "HIGH"
           else if 0.96 < (finalizePE pAgg).avg_price_ratio then "LOW" else "MEDIUM") := rfl
      rw [h, pAgg_avg]
      norm_num
    simp [hname, htot, hsens, pAgg_avg]

/-- Witness for C7: the scenario profile, whose mean ratio 0.92 lies inside
the MEDIUM band, satisfies all three threshold equivalences. -/
theorem C7_witness :
    ((finalizePE pAgg).price_sensitivity = "HIGH" ↔ (finalizePE pAgg).avg_price_ratio < 0.88) ∧
    ((finalizePE pAgg).price_sensitivity = "LOW" ↔ 0.96 < (finalizePE pAgg).avg_price_ratio) ∧
    ((finalizePE pAgg).price_sensitivity = "MEDIUM" ↔
      (0.88 ≤ (finalizePE pAgg).avg_price_ratio ∧ (finalizePE pAgg).avg_price_ratio ≤ 0.96)) :=
  C7_pe_sensitivity_thresholds_and_scenario.1 pStore (finalizePE pAgg)
    (by simp [rebuild_pStore])

/-! ## C8: the price-competitiveness factor -/

/-- Modelled from the spec's words, for comparison with the code's
`priceCompFactor`: "if sector ratio statistics exist, score =
`max(0.2, 1 − |company_typical_ratio − sector_mean_ratio| / span)` where
span = sector max−min ratio (fallback to 0.1 if the span is zero, to avoid
division by zero); else a flat 0.60." -/
def spec_price_competitiveness (ratios : List ℚ) (our_typical : ℚ) : ℚ :=
  match ratios with
  | [] => 0.60
  | r :: rs =>
    let avg := (r :: rs).sum / ((r :: rs).length : ℚ)
    let mx := rs.foldl max r
    let mn := rs.foldl min r
    let span := if mx - mn = 0 then 0.1 else mx - mn
    max 0.2 (1 - |our_typical - avg| / span)

/-- **C8 counterexample.**  A sector with one stored ratio `0.0` *has*
ratio statistics (`AVG`, `MIN`, `MAX` are all non-null), yet the code
returns the flat `0.60` — the Python truthiness test `if price_data and
price_data["avg_r"]` also discards a zero mean — while the spec's formula
yields `max(0.2, 1 − |0.92 − 0|/0.1) = 0.2`. -/
theorem C8_counterexample :
    priceCompFactor [0] 0.92 = 0.60 ∧
    spec_price_competitiveness [0] 0.92 = 0.2 ∧
    priceCompFactor [0] 0.92 ≠ spec_price_competitiveness [0] 0.92 := by
  have h1 : priceCompFactor [0] 0.92 = 0.60 := by
    simp only [priceCompFactor]
    norm_num
  have h2 : spec_price_competitiveness [0] 0.92 = 0.2 := by
    simp only [spec_price_competitiveness, List.sum_cons, List.sum_nil, List.length_cons,
      List.length_nil, List.foldl_nil]
    norm_num
    rw [show |(23:ℚ)/25| = 23/25 from abs_of_nonneg (by norm_num)]
    norm_num
  exact ⟨h1, h2, by rw [h1, h2]; norm_num⟩

/-- **C8 (amended).**  In the TPS price-competitiveness factor, whenever
sector ratio rows exist *and their mean is nonzero* (Python truthiness on
`avg_r`), the score equals `max(0.2, 1 − |typical − mean| / span)` where
the span `max − min` is replaced by the fallback `0.1` when zero — the
span used is always strictly positive, so the division is never by zero,
and the score then lies in `[0.2, 1]`.  When no ratio rows exist, or their
mean is zero, the factor is the flat `0.60`. -/
theorem C8_price_competitiveness_guarded (r : ℚ) (rs : List ℚ) (typical : ℚ) :
    (priceCompFactor [] typical = 0.60) ∧
    ((r :: rs).sum / ((r :: rs).length : ℚ) = 0 →
      priceCompFactor (r :: rs) typical = 0.60) ∧
    ((r :: rs).sum / ((r :: rs).length : ℚ) ≠ 0 →
      (0 < (if rs.foldl max r - rs.foldl min r = 0 then (0.1 : ℚ)
            else rs.foldl max r - rs.foldl min r)) ∧
      priceCompFactor (r :: rs) typical =
        max 0.2 (1 - |typical - (r :: rs).sum / ((r :: rs).length : ℚ)| /
          (if rs.foldl max r - rs.foldl min r = 0 then 0.1
           else rs.foldl max r - rs.foldl min r)) ∧
      0.2 ≤ priceCompFactor (r :: rs) typical ∧
      priceCompFactor (r :: rs) typical ≤ 1) := by
  refine ⟨by simp only [priceCompFactor], ?_, ?_⟩
  · intro h
    simp only [priceCompFactor]
    rw [if_pos h]
  · intro h
    have hmn : rs.foldl min r ≤ r := foldl_min_le_init rs r
    have hmx : r ≤ rs.foldl max r := init_le_foldl_max rs r
    have hspan : (0:ℚ) < (if rs.foldl max r - rs.foldl min r = 0 then 0.1
        else rs.foldl max r - rs.foldl min r) := by
      by_cases hz : rs.foldl max r - rs.foldl min r = 0
      · rw [if_pos hz]; norm_num
      · rw [if_neg hz]
        rcases lt_or_eq_of_le (le_trans hmn hmx) with hlt | heq
        · linarith
        · exact absurd (by linarith) hz
    have heq : priceCompFactor (r :: rs) typical =
        max 0.2 (1 - |typical - (r :: rs).sum / ((r :: rs).length : ℚ)| /
          (if rs.foldl max r - rs.foldl min r = 0 then 0.1
           else rs.foldl max r - rs.foldl min r)) := by
      simp only [priceCompFactor]
      rw [if_neg h]
    refine ⟨hspan, heq, ?_, ?_⟩
    · rw [heq]; exact le_max_left _ _
    · rw [heq]
      refine max_le (by norm_num) ?_
      have hd : 0 ≤ |typical - (r :: rs).sum / ((r :: rs).length : ℚ)| /
          (if rs.foldl max r - rs.foldl min r = 0 then (0.1:ℚ)
           else rs.foldl max r - rs.foldl min r) :=
        div_nonneg (abs_nonneg _) (le_of_lt hspan)
      linarith

/-- Witness for C8 at the one-ratio list `[1]` and typical ratio 1: the
mean is nonzero, so the guarded formula branch applies. -/
theorem C8_witness :
    (0 < (if ([] : List ℚ).foldl max 1 - ([] : List ℚ).foldl min 1 = 0 then (0.1 : ℚ)
          else ([] : List ℚ).foldl max 1 - ([] : List ℚ).foldl min 1)) ∧
    priceCompFactor [1] 1 =
      max 0.2 (1 - |1 - ([1] : List ℚ).sum / (([1] : List ℚ).length : ℚ)| /
        (if ([] : List ℚ).foldl max 1 - ([] : List ℚ).foldl min 1 = 0 then 0.1
         else ([] : List ℚ).foldl max 1 - ([] : List ℚ).foldl min 1)) ∧
    0.2 ≤ priceCompFactor [1] 1 ∧ priceCompFactor [1] 1 ≤ 1 :=
  (C8_price_competitiveness_guarded 1 [] 1).2.2 (by simp)

/-! ## C10: zero prices and zero ratios behave exactly like null -/

/-- Turn a stored `0` into SQL `NULL`. -/
def zeroToNone (x : Option ℚ) : Option ℚ :=
  match x with
  | some v => if v = 0 then none else some v
  | none => none

/-- Replace a record's zero price and zero ratio by null. -/
def scrubRecord (r : AwardRecord) : AwardRecord :=
  { r with contract_price := zeroToNone r.contract_price,
           price_ratio := zeroToNone r.price_ratio }

theorem appendIfTruthy_zeroToNone (x : Option ℚ) (l : List ℚ) :
    appendIfTruthy (zeroToNone x) l = appendIfTruthy x l := by
  rcases x with _ | v
  · rfl
  · by_cases hv : v = 0 <;> simp [zeroToNone, appendIfTruthy, hv]

theorem compStep_scrub (l : List CompAgg) (r : AwardRecord) :
    compStep l (scrubRecord r) = compStep l r := by
  have hupd : compUpdate (scrubRecord r) = compUpdate r := by
    funext p
    simp only [compUpdate, scrubRecord, appendIfTruthy_zeroToNone]
  have hw : (scrubRecord r).winning_company = r.winning_company := rfl
  simp only [compStep, hupd, hw]

theorem peStep_scrub (l : List PEAgg) (r : AwardRecord) :
    peStep l (scrubRecord r) = peStep l r := by
  have hupd : peUpdate (scrubRecord r) = peUpdate r := by
    funext d
    simp only [peUpdate, scrubRecord, appendIfTruthy_zeroToNone]
  have hempty : emptyPEAgg (scrubRecord r) = emptyPEAgg r := rfl
  have hpn : (scrubRecord r).pe_name = r.pe_name := rfl
  simp only [peStep, hupd, hempty, hpn]

/-- **C10.**  In both profile rebuilds, an award record whose
`contract_price` is `0` is excluded from the price aggregates and one
whose `price_ratio` is `0` is excluded from the ratio aggregates, exactly
as if those values were null: replacing every stored `0` by `NULL`
changes neither rebuild's output. -/
theorem C10_zero_behaves_as_null (records : List AwardRecord) :
    rebuild_competitor_profiles (records.map scrubRecord) =
      rebuild_competitor_profiles records ∧
    rebuild_pe_profiles (records.map scrubRecord) = rebuild_pe_profiles records := by
  constructor
  · show (compAggregate ((records.map scrubRecord).filter
        fun r => r.winning_company != "Unknown")).map _ = _
    rw [List.filter_map]
    have hp : ((fun r : AwardRecord => r.winning_company != "Unknown") ∘ scrubRecord) =
        fun r : AwardRecord => r.winning_company != "Unknown" := rfl
    rw [hp]
    have hagg : compAggregate ((records.filter
        fun r => r.winning_company != "Unknown").map scrubRecord) =
        compAggregate (records.filter fun r => r.winning_company != "Unknown") := by
      show List.foldl compStep [] _ = List.foldl compStep [] _
      rw [List.foldl_map]
      exact List.foldl_ext _ _ _ fun acc a _ => compStep_scrub acc a
    rw [hagg]
    rfl
  · show ((records.map scrubRecord).foldl peStep []).map finalizePE = _
    rw [List.foldl_map]
    have : List.foldl (fun acc a => peStep acc (scrubRecord a)) [] records =
        List.foldl peStep [] records :=
      List.foldl_ext _ _ _ fun acc a _ => peStep_scrub acc a
    rw [this]
    rfl

/-! ## C4: idempotence of the name normalizer.

The development below characterises the output of the normalization
pipeline: the result (before title-casing) is a join of nonempty
lowercase word-character runs separated by single spaces, none of which
equals a letter alternative of the suffix regex; on such strings every
pass of the pipeline is the identity. -/

theorem mem_of_containsChar {l : List Char} {c : Char} (h : l.contains c = true) : c ∈ l :=
  List.elem_iff.mp h

theorem containsChar_of_mem {l : List Char} {c : Char} (h : c ∈ l) : l.contains c = true :=
  List.elem_iff.mpr h

theorem wordChar_not_spaceChar {c : Char} (h : isWordChar c = true) : isSpaceChar c = false := by
  have hall : ∀ x ∈ wordChars, isSpaceChar x = false := by decide
  exact hall c (mem_of_containsChar h)

theorem spaceChar_not_wordChar {c : Char} (h : isSpaceChar c = true) : isWordChar c = false := by
  have hall : ∀ x ∈ spaceChars, isWordChar x = false := by decide
  exact hall c (mem_of_containsChar h)

theorem lower_pyLowerChar {c : Char} (h : asciiUpper.contains c = false) : pyLowerChar c = c := by
  unfold pyLowerChar
  rw [h]
  rfl

theorem pyLowerChar_not_upper (c : Char) : asciiUpper.contains (pyLowerChar c) = false := by
  cases hb : asciiUpper.contains c with
  | false => rw [lower_pyLowerChar hb]; exact hb
  | true =>
    have hall : ∀ x ∈ asciiUpper, asciiUpper.contains (Char.ofNat (x.toNat + 32)) = false := by
      decide
    unfold pyLowerChar
    rw [hb]
    simpa using hall c (mem_of_containsChar hb)

theorem lower_upper_lower : ∀ x ∈ asciiLower, pyLowerChar (pyUpperChar x) = x := by decide

/-- `str.lower` undoes `str.title` on a string without uppercase letters. -/
theorem map_lower_title (s : List Char) (h : ∀ c ∈ s, asciiUpper.contains c = false) :
    ∀ b, (pyTitleAux b s).map pyLowerChar = s := by
  induction s with
  | nil => intro b; rfl
  | cons c rest ih =>
    intro b
    have hc := h c (List.mem_cons_self c rest)
    have hrest : ∀ x ∈ rest, asciiUpper.contains x = false :=
      fun x hx => h x (List.mem_cons_of_mem c hx)
    simp only [pyTitleAux, List.map_cons, ih hrest]
    cases ha : isAsciiAlpha c with
    | false => simp [ha, lower_pyLowerChar hc]
    | true =>
      have hlow : c ∈ asciiLower := by
        have : asciiLower.contains c = true := by
          simp only [isAsciiAlpha, hc, Bool.or_false] at ha
          exact ha
        exact mem_of_containsChar this
      cases b with
      | true => simp [ha, lower_pyLowerChar hc]
      | false => simp [ha, lower_upper_lower c hlow]

theorem pyTitleAux_nil_iff (b : Bool) (s : List Char) : pyTitleAux b s = [] ↔ s = [] := by
  cases s <;> simp [pyTitleAux]

/-! ### The scan `sub1` through length-indexed fuel -/

/-- The scan at its canonical fuel (`sub1 = sub1R none`). -/
def sub1R (prev : Option Char) (s : List Char) : List Char := sub1Fuel s.length prev s

theorem sub1Fuel_nil (fuel : Nat) (prev : Option Char) : sub1Fuel fuel prev [] = [] := by
  cases fuel <;> rfl

theorem alts_ne_nil : ∀ a ∈ SUFFIX_ALTS, a ≠ [] := by decide

theorem alts_head_word : ∀ a ∈ SUFFIX_ALTS, isWordCharO (headOpt a) = true := by decide

theorem findAlt_eq_some {alts : List (List Char)} {s a : List Char} {rest' : List Char}
    (h : findAlt alts s = some (a, rest')) :
    a ∈ alts ∧ a.isPrefixOf s = true ∧ rest' = s.drop a.length ∧
      boundary a.getLast? (headOpt rest') = true := by
  induction alts with
  | nil => simp [findAlt] at h
  | cons b alts ih =>
    simp only [findAlt] at h
    by_cases hc : (b.isPrefixOf s && boundary b.getLast? (headOpt (s.drop b.length))) = true
    · rw [if_pos hc] at h
      simp only [Option.some.injEq, Prod.mk.injEq] at h
      obtain ⟨rfl, rfl⟩ := h
      rw [Bool.and_eq_true] at hc
      obtain ⟨h1, h2⟩ := hc
      exact ⟨List.mem_cons_self b alts, h1, rfl, h2⟩
    · rw [if_neg hc] at h
      obtain ⟨hmem, h2, h3, h4⟩ := ih h
      exact ⟨List.mem_cons_of_mem b hmem, h2, h3, h4⟩

theorem findAlt_none_of_head_not_word {s : List Char}
    (hs : isWordCharO (headOpt s) = false) : findAlt SUFFIX_ALTS s = none := by
  have gen : ∀ alts : List (List Char), (∀ a ∈ alts, isWordCharO (headOpt a) = true) →
      findAlt alts s = none := by
    intro alts hall
    induction alts with
    | nil => rfl
    | cons b alts ih =>
      have hb := hall b (List.mem_cons_self b alts)
      have hpre : b.isPrefixOf s = false := by
        cases b with
        | nil => simp [headOpt, isWordCharO] at hb
        | cons c b' =>
          cases s with
          | nil => rfl
          | cons d s' =>
            simp only [headOpt, isWordCharO] at hb hs
            show ((c == d) && b'.isPrefixOf s') = false
            have hcd : (c == d) = false := by
              cases hq : c == d with
              | false => rfl
              | true =>
                have : c = d := eq_of_beq hq
                rw [this] at hb
                rw [hb] at hs
                exact absurd hs (by simp)
            rw [hcd, Bool.false_and]
      simp only [findAlt, hpre, Bool.false_and]
      rw [if_neg (by simp)]
      exact ih fun a ha => hall a (List.mem_cons_of_mem b ha)
  exact gen SUFFIX_ALTS alts_head_word

theorem findAlt_ne_none {alts : List (List Char)} {s a : List Char} (ha : a ∈ alts)
    (hpre : a.isPrefixOf s = true)
    (hb : boundary a.getLast? (headOpt (s.drop a.length)) = true) :
    findAlt alts s ≠ none := by
  induction alts with
  | nil => simp at ha
  | cons b alts ih =>
    simp only [findAlt]
    by_cases hc : (b.isPrefixOf s && boundary b.getLast? (headOpt (s.drop b.length))) = true
    · rw [if_pos hc]; simp
    · rw [if_neg hc]
      rcases List.mem_cons.mp ha with rfl | hmem
      · exact absurd (by rw [hpre, hb]; rfl) hc
      · exact ih hmem

theorem sub1Fuel_irrel : ∀ (f1 : Nat) {f2 : Nat} {prev : Option Char} {s : List Char},
    s.length ≤ f1 → s.length ≤ f2 → sub1Fuel f1 prev s = sub1Fuel f2 prev s := by
  intro f1
  induction f1 with
  | zero =>
    intro f2 prev s h1 _
    have hz : s = [] := List.length_eq_zero.mp (Nat.le_zero.mp h1)
    subst hz
    rw [sub1Fuel_nil, sub1Fuel_nil]
  | succ f1 ih =>
    intro f2 prev s h1 h2
    cases s with
    | nil => rw [sub1Fuel_nil, sub1Fuel_nil]
    | cons c rest =>
      cases f2 with
      | zero => simp at h2
      | succ f2' =>
        simp only [sub1Fuel]
        have hr1 : rest.length ≤ f1 := by simpa using h1
        have hr2 : rest.length ≤ f2' := by simpa using h2
        by_cases hb : boundary prev (some c) = true
        · rw [if_pos hb, if_pos hb]
          cases hf : findAlt SUFFIX_ALTS (c :: rest) with
          | none => rw [ih hr1 hr2]
          | some pr =>
            obtain ⟨a, rest'⟩ := pr
            obtain ⟨hmem, _, hdrop, _⟩ := findAlt_eq_some hf
            have hane : a ≠ [] := alts_ne_nil a hmem
            have halen : 1 ≤ a.length := by
              cases a with
              | nil => exact absurd rfl hane
              | cons x xs => simp
            have hlen : rest'.length ≤ rest.length := by
              subst hdrop
              rw [List.length_drop]
              simp only [List.length_cons]
              omega
            exact ih (le_trans hlen hr1) (le_trans hlen hr2)
        · rw [if_neg hb, if_neg hb, ih hr1 hr2]

theorem sub1R_nil (prev : Option Char) : sub1R prev [] = [] := rfl

theorem sub1_eq_sub1R (s : List Char) : sub1 s = sub1R none s := rfl

theorem sub1R_cons_match {prev : Option Char} {c : Char} {rest a rest' : List Char}
    (hb : boundary prev (some c) = true)
    (hf : findAlt SUFFIX_ALTS (c :: rest) = some (a, rest')) :
    sub1R prev (c :: rest) = sub1R a.getLast? rest' := by
  obtain ⟨hmem, _, hdrop, _⟩ := findAlt_eq_some hf
  have hane : a ≠ [] := alts_ne_nil a hmem
  have halen : 1 ≤ a.length := by
    cases a with
    | nil => exact absurd rfl hane
    | cons x xs => simp
  have hlen : rest'.length ≤ rest.length := by
    subst hdrop
    rw [List.length_drop]
    simp only [List.length_cons]
    omega
  show sub1Fuel (rest.length + 1) prev (c :: rest) = _
  simp only [sub1Fuel, hb, if_true, hf]
  exact sub1Fuel_irrel rest.length hlen (le_refl _)

theorem sub1R_cons_nomatch {prev : Option Char} {c : Char} {rest : List Char}
    (hb : boundary prev (some c) = true)
    (hf : findAlt SUFFIX_ALTS (c :: rest) = none) :
    sub1R prev (c :: rest) = c :: sub1R (some c) rest := by
  show sub1Fuel (rest.length + 1) prev (c :: rest) = _
  simp only [sub1Fuel, hb, if_true, hf]
  rfl

theorem sub1R_cons_noboundary {prev : Option Char} {c : Char} {rest : List Char}
    (hb : boundary prev (some c) = false) :
    sub1R prev (c :: rest) = c :: sub1R (some c) rest := by
  show sub1Fuel (rest.length + 1) prev (c :: rest) = _
  simp only [sub1Fuel, hb]
  rw [if_neg (by simp)]
  rfl

/-! ### Maximal word-character runs -/

/-- The maximal runs of word characters of a string, in order. -/
def wordRuns : List Char → List (List Char)
  | [] => []
  | c :: rest =>
    if isWordChar c then
      (c :: rest.takeWhile isWordChar) :: wordRuns (rest.dropWhile isWordChar)
    else wordRuns rest
termination_by s => s.length
decreasing_by
  · have := (List.dropWhile_sublist (l := rest) isWordChar).length_le
    simp only [List.length_cons]
    omega
  · simp

theorem wordRuns_nil : wordRuns [] = [] := by rw [wordRuns]

theorem wordRuns_cons_word {c : Char} (rest : List Char) (h : isWordChar c = true) :
    wordRuns (c :: rest) =
      (c :: rest.takeWhile isWordChar) :: wordRuns (rest.dropWhile isWordChar) := by
  rw [wordRuns]
  simp [h]

theorem wordRuns_cons_notword {c : Char} (rest : List Char) (h : isWordChar c = false) :
    wordRuns (c :: rest) = wordRuns rest := by
  rw [wordRuns]
  simp [h]

/-- Every run is a nonempty list of word characters. -/
theorem wordRuns_spec (s : List Char) :
    ∀ t ∈ wordRuns s, t ≠ [] ∧ ∀ c ∈ t, isWordChar c = true := by
  induction s using wordRuns.induct with
  | case1 => simp [wordRuns_nil]
  | case2 c rest hc ih =>
    rw [wordRuns_cons_word rest hc]
    intro t ht
    rcases List.mem_cons.mp ht with rfl | hmem
    · refine ⟨by simp, ?_⟩
      intro x hx
      rcases List.mem_cons.mp hx with rfl | hx2
      · exact hc
      · exact List.mem_takeWhile_imp hx2
    · exact ih t hmem
  | case3 c rest hc ih =>
    rw [wordRuns_cons_notword rest (by simpa using hc)]
    exact ih

theorem takeWhile_append_of_all {p : Char → Bool} {l₁ : List Char} (l₂ : List Char)
    (h : ∀ c ∈ l₁, p c = true) :
    (l₁ ++ l₂).takeWhile p = l₁ ++ l₂.takeWhile p := by
  induction l₁ with
  | nil => simp
  | cons c rest ih =>
    have hc := h c (List.mem_cons_self c rest)
    simp only [List.cons_append, List.takeWhile_cons, hc, if_true]
    rw [ih fun x hx => h x (List.mem_cons_of_mem c hx)]

theorem dropWhile_append_of_all {p : Char → Bool} {l₁ : List Char} (l₂ : List Char)
    (h : ∀ c ∈ l₁, p c = true) :
    (l₁ ++ l₂).dropWhile p = l₂.dropWhile p := by
  induction l₁ with
  | nil => simp
  | cons c rest ih =>
    have hc := h c (List.mem_cons_self c rest)
    simp only [List.cons_append, List.dropWhile_cons, hc, if_true]
    exact ih fun x hx => h x (List.mem_cons_of_mem c hx)

/-! ### The scan never leaves a whole run equal to a letter alternative -/

/-- The thirteen all-letter alternatives (all of `SUFFIX_ALTS` except the
dotted `t.z.`). -/
def LETTER_ALTS : List (List Char) :=
  [['l','t','d'],
   ['l','i','m','i','t','e','d'],
   ['c','o'],
   ['c','o','m','p','a','n','y'],
   ['c','o','r','p','o','r','a','t','i','o','n'],
   ['c','o','r','p'],
   ['i','n','c'],
   ['l','l','c'],
   ['p','l','c'],
   ['p','v','t'],
   ['p','r','i','v','a','t','e'],
   ['t','a','n','z','a','n','i','a'],
   ['t','z']]

theorem letter_alts_mem_suffix : ∀ a ∈ LETTER_ALTS, a ∈ SUFFIX_ALTS := by decide

theorem dropWhile_head_not {p : Char → Bool} :
    ∀ {l : List Char} {d : Char} {rest : List Char}, l.dropWhile p = d :: rest → p d = false := by
  intro l
  induction l with
  | nil => intro d rest h; simp at h
  | cons c t ih =>
    intro d rest h
    rw [List.dropWhile_cons] at h
    by_cases hc : p c = true
    · rw [if_pos hc] at h
      exact ih h
    · rw [if_neg hc] at h
      obtain ⟨rfl, _⟩ := List.cons.injEq .. ▸ h
      injection h with h1 _
      rw [← h1]
      exact Bool.not_eq_true _ ▸ hc

theorem getLast?_word : ∀ (l : List Char), (∀ c ∈ l, isWordChar c = true) → l ≠ [] →
    isWordCharO l.getLast? = true
  | [], _, h => absurd rfl h
  | [c], h, _ => by
    simpa [isWordCharO] using h c (List.mem_singleton.mpr rfl)
  | c :: d :: t, h, _ => by
    rw [List.getLast?_cons_cons]
    exact getLast?_word (d :: t) (fun x hx => h x (List.mem_cons_of_mem c hx)) (by simp)

/-- Mode-B copying: starting just after a word character, the scan copies
the rest of the current run verbatim and resumes after it. -/
theorem sub1R_copy_word (s : List Char) : ∀ w : Char, isWordChar w = true →
    ∃ w', isWordChar w' = true ∧
      sub1R (some w) s = s.takeWhile isWordChar ++ sub1R (some w') (s.dropWhile isWordChar) := by
  induction s with
  | nil => intro w hw; exact ⟨w, hw, by simp⟩
  | cons c rest ih =>
    intro w hw
    cases hc : isWordChar c with
    | true =>
      have hb : boundary (some w) (some c) = false := by
        simp [boundary, isWordCharO, hw, hc]
      rw [sub1R_cons_noboundary hb]
      obtain ⟨w', hw', heq⟩ := ih c hc
      refine ⟨w', hw', ?_⟩
      rw [heq]
      simp [List.takeWhile_cons, List.dropWhile_cons, hc]
    | false =>
      refine ⟨w, hw, ?_⟩
      simp [List.takeWhile_cons, List.dropWhile_cons, hc]

theorem isWordCharO_some (c : Char) : isWordCharO (some c) = isWordChar c := rfl

theorem isWordCharO_none : isWordCharO none = false := rfl

/-- Core soundness of the suffix-stripping scan: no maximal word run of
the output is a whole-word letter alternative (under the invariant that
the scan does not start in the middle of a run). -/
theorem sub1R_runs_not_letter : ∀ (n : Nat) (s : List Char), s.length ≤ n →
    ∀ prev : Option Char,
    ¬(isWordCharO prev = true ∧ isWordCharO (headOpt s) = true) →
    ∀ t ∈ wordRuns (sub1R prev s), t ∉ LETTER_ALTS := by
  intro n
  induction n with
  | zero =>
    intro s hs prev _
    have hz : s = [] := List.length_eq_zero.mp (Nat.le_zero.mp hs)
    subst hz
    simp [sub1R_nil, wordRuns_nil]
  | succ n ih =>
    intro s hs prev hinv
    cases s with
    | nil => simp [sub1R_nil, wordRuns_nil]
    | cons c rest =>
      have hrest : rest.length ≤ n := by simpa using hs
      cases hc : isWordChar c with
      | false =>
        have hstep : sub1R prev (c :: rest) = c :: sub1R (some c) rest := by
          cases hb : boundary prev (some c) with
          | false => exact sub1R_cons_noboundary hb
          | true =>
            exact sub1R_cons_nomatch hb
              (findAlt_none_of_head_not_word (by simp [headOpt, isWordCharO, hc]))
        rw [hstep, wordRuns_cons_notword _ hc]
        exact ih rest hrest (some c) (by simp [isWordCharO_some, hc])
      | true =>
        have hprev : isWordCharO prev = false := by
          cases hp : isWordCharO prev with
          | false => rfl
          | true => exact absurd ⟨hp, by simp [headOpt, isWordCharO, hc]⟩ hinv
        have hb : boundary prev (some c) = true := by
          simp [boundary, hprev, isWordCharO_some, hc]
        cases hf : findAlt SUFFIX_ALTS (c :: rest) with
        | some pr =>
          obtain ⟨a, rest'⟩ := pr
          obtain ⟨hmem, hpre, hdrop, hbound⟩ := findAlt_eq_some hf
          rw [sub1R_cons_match hb hf]
          have hinv' : ¬(isWordCharO a.getLast? = true ∧
              isWordCharO (headOpt rest') = true) := by
            rintro ⟨h1, h2⟩
            rw [boundary, h1, h2] at hbound
            simp at hbound
          have hane : a ≠ [] := alts_ne_nil a hmem
          have halen : 1 ≤ a.length := by
            cases a with
            | nil => exact absurd rfl hane
            | cons x xs => simp
          have hlen : rest'.length ≤ n := by
            subst hdrop
            rw [List.length_drop]
            simp only [List.length_cons]
            omega
          exact ih rest' hlen a.getLast? hinv'
        | none =>
          rw [sub1R_cons_nomatch hb hf]
          obtain ⟨w', hw', hcopy⟩ := sub1R_copy_word rest c hc
          rw [hcopy]
          have htw : ∀ x ∈ rest.takeWhile isWordChar, isWordChar x = true :=
            fun x hx => List.mem_takeWhile_imp hx
          have hXruns : ∀ t ∈ wordRuns (sub1R (some w')
              (rest.dropWhile isWordChar)), t ∉ LETTER_ALTS := by
            apply ih (rest.dropWhile isWordChar)
              (le_trans (List.dropWhile_sublist isWordChar).length_le hrest) (some w')
            rintro ⟨_, hhd⟩
            cases hdw : rest.dropWhile isWordChar with
            | nil => rw [hdw] at hhd; simp [headOpt, isWordCharO] at hhd
            | cons d dtail =>
              rw [hdw] at hhd
              have hd := dropWhile_head_not hdw
              rw [show isWordCharO (headOpt (d :: dtail)) = isWordChar d from rfl, hd] at hhd
              exact absurd hhd (by simp)
          -- the head of the continued scan is not a word character
          have hXshape : (sub1R (some w') (rest.dropWhile isWordChar)).takeWhile isWordChar
                = [] ∧
              (sub1R (some w') (rest.dropWhile isWordChar)).dropWhile isWordChar
                = sub1R (some w') (rest.dropWhile isWordChar) := by
            cases hdw : rest.dropWhile isWordChar with
            | nil => simp [sub1R_nil]
            | cons d dtail =>
              have hd := dropWhile_head_not hdw
              have hbd : boundary (some w') (some d) = true := by
                simp [boundary, isWordCharO, hw', hd]
              rw [sub1R_cons_nomatch hbd
                (findAlt_none_of_head_not_word (by simp [headOpt, isWordCharO, hd]))]
              simp [List.takeWhile_cons, List.dropWhile_cons, hd]
          rw [wordRuns_cons_word _ hc,
            takeWhile_append_of_all _ htw, hXshape.1,
            dropWhile_append_of_all _ htw, hXshape.2, List.append_nil]
          intro t ht
          rcases List.mem_cons.mp ht with rfl | hmem
          · -- the first run of the output is the whole current input run;
            -- were it a letter alternative, findAlt would have matched
            intro habs
            apply findAlt_ne_none (letter_alts_mem_suffix _ habs) ?_ ?_ hf
            · rw [List.isPrefixOf_iff_prefix]
              exact ⟨rest.dropWhile isWordChar, by
                simp [List.takeWhile_append_dropWhile]⟩
            · have hgl : isWordCharO (c :: rest.takeWhile isWordChar).getLast? = true :=
                getLast?_word _ (by
                  intro x hx
                  rcases List.mem_cons.mp hx with rfl | hx2
                  · exact hc
                  · exact htw x hx2) (by simp)
              have hdrop2 : (c :: rest).drop (c :: rest.takeWhile isWordChar).length =
                  rest.dropWhile isWordChar := by
                have : (c :: rest) = (c :: rest.takeWhile isWordChar) ++
                    rest.dropWhile isWordChar := by
                  simp [List.takeWhile_append_dropWhile]
                rw [this, List.drop_left]
              rw [hdrop2]
              cases hdw : rest.dropWhile isWordChar with
              | nil => simp [boundary, hgl, headOpt, isWordCharO_none]
              | cons d dtail =>
                have hd := dropWhile_head_not hdw
                simp [boundary, hgl, headOpt, isWordCharO_some, hd]
          · exact hXruns t hmem

/-! ### Shape of the collapse and strip passes -/

theorem headOpt_eq_head? (l : List Char) : headOpt l = l.head? := by cases l <;> rfl

theorem sub2_cons (c : Char) (rest : List Char) :
    sub2 (c :: rest) =
      (if isWordChar c || isSpaceChar c then c else ' ') :: sub2 rest := rfl

theorem sub2_f_notword {c : Char} (hc : isWordChar c = false) :
    isWordChar (if isWordChar c || isSpaceChar c then c else ' ') = false := by
  by_cases hs : isSpaceChar c = true
  · simpa [hc, hs] using hc
  · simp only [hc, Bool.false_or, hs]
    rw [if_neg (by simpa using hs)]
    decide

theorem sub2_split (rest : List Char) :
    (sub2 rest).takeWhile isWordChar = rest.takeWhile isWordChar ∧
    (sub2 rest).dropWhile isWordChar = sub2 (rest.dropWhile isWordChar) := by
  induction rest with
  | nil => exact ⟨rfl, rfl⟩
  | cons c r ih =>
    rw [sub2_cons]
    by_cases hc : isWordChar c = true
    · have hfc : (if isWordChar c || isSpaceChar c then c else ' ') = c := by simp [hc]
      rw [hfc]
      constructor
      · rw [List.takeWhile_cons, List.takeWhile_cons, hc, if_pos rfl, if_pos rfl, ih.1]
      · rw [List.dropWhile_cons, List.dropWhile_cons, hc, if_pos rfl, if_pos rfl, ih.2]
    · have hc' : isWordChar c = false := by simpa using hc
      have hfc := sub2_f_notword hc'
      constructor
      · rw [List.takeWhile_cons, List.takeWhile_cons, hfc, hc']
        simp
      · rw [List.dropWhile_cons, List.dropWhile_cons, hfc, hc']
        simp [sub2_cons, hc']

theorem wordRuns_sub2 (s : List Char) : wordRuns (sub2 s) = wordRuns s := by
  induction s using wordRuns.induct with
  | case1 => rfl
  | case2 c rest hc ih =>
    rw [sub2_cons]
    have hfc : (if isWordChar c || isSpaceChar c then c else ' ') = c := by simp [hc]
    rw [hfc, wordRuns_cons_word _ hc, wordRuns_cons_word _ hc, (sub2_split rest).1,
      (sub2_split rest).2, ih]
  | case3 c rest hc ih =>
    rw [sub2_cons]
    have hc' : isWordChar c = false := by simpa using hc
    rw [wordRuns_cons_notword _ (sub2_f_notword hc'), wordRuns_cons_notword _ hc', ih]

theorem sub2_chars (s : List Char) :
    ∀ c ∈ sub2 s, isWordChar c = true ∨ isSpaceChar c = true := by
  intro c hc
  obtain ⟨d, _, rfl⟩ := List.mem_map.mp hc
  by_cases hd : (isWordChar d || isSpaceChar d) = true
  · rw [if_pos hd]
    simpa using hd
  · rw [if_neg hd]
    right
    decide

theorem sub3Aux_chars (s : List Char) :
    ∀ b, ∀ c ∈ sub3Aux b s, c = ' ' ∨ (c ∈ s ∧ isSpaceChar c = false) := by
  induction s with
  | nil => intro b c hc; simp [sub3Aux] at hc
  | cons d rest ih =>
    intro b c hc
    simp only [sub3Aux] at hc
    cases hd : isSpaceChar d with
    | true =>
      rw [hd] at hc
      simp only [if_pos rfl] at hc
      cases b with
      | true =>
        simp only [List.nil_append] at hc
        rcases ih true c hc with h | ⟨hm, hn⟩
        · exact Or.inl h
        · exact Or.inr ⟨List.mem_cons_of_mem d hm, hn⟩
      | false =>
        rcases List.mem_cons.mp (by simpa using hc) with rfl | hmem
        · exact Or.inl rfl
        · rcases ih true c hmem with h | ⟨hm, hn⟩
          · exact Or.inl h
          · exact Or.inr ⟨List.mem_cons_of_mem d hm, hn⟩
    | false =>
      rw [hd] at hc
      simp only [Bool.false_eq_true, if_neg (by simp : ¬False)] at hc
      rcases List.mem_cons.mp (by simpa using hc) with rfl | hmem
      · exact Or.inr ⟨List.mem_cons_self c rest, hd⟩
      · rcases ih false c hmem with h | ⟨hm, hn⟩
        · exact Or.inl h
        · exact Or.inr ⟨List.mem_cons_of_mem d hm, hn⟩

theorem pyStrip_subset {s : List Char} {c : Char} (h : c ∈ pyStrip s) : c ∈ s := by
  unfold pyStrip at h
  rw [List.mem_reverse] at h
  have h2 := (List.dropWhile_sublist isSpaceChar).mem h
  rw [List.mem_reverse] at h2
  exact (List.dropWhile_sublist isSpaceChar).mem h2

/-- The suffix scan only ever copies characters of its input. -/
theorem sub1R_subset_aux : ∀ (n : Nat) (s : List Char), s.length ≤ n →
    ∀ (prev : Option Char) (c : Char), c ∈ sub1R prev s → c ∈ s := by
  intro n
  induction n with
  | zero =>
    intro s hs prev c hc
    have hz : s = [] := List.length_eq_zero.mp (Nat.le_zero.mp hs)
    subst hz
    simpa [sub1R_nil] using hc
  | succ n ih =>
    intro s hs prev c hc
    cases s with
    | nil => simpa [sub1R_nil] using hc
    | cons d rest =>
      by_cases hb : boundary prev (some d) = true
      · cases hf : findAlt SUFFIX_ALTS (d :: rest) with
        | some p =>
          obtain ⟨a, rest'⟩ := p
          rw [sub1R_cons_match hb hf] at hc
          obtain ⟨hmem, _, hdrop, _⟩ := findAlt_eq_some hf
          have hane : a ≠ [] := alts_ne_nil a hmem
          have halen : 1 ≤ a.length := by
            cases a with
            | nil => exact absurd rfl hane
            | cons _ _ => simp
          have hlen : rest'.length ≤ n := by
            rw [hdrop, List.length_drop, List.length_cons]
            simp only [List.length_cons] at hs
            omega
          have hmemr : c ∈ rest' := ih rest' hlen a.getLast? c hc
          rw [hdrop] at hmemr
          exact List.drop_subset _ _ hmemr
        | none =>
          rw [sub1R_cons_nomatch hb hf] at hc
          rcases List.mem_cons.mp hc with rfl | hmemr
          · exact List.mem_cons_self c rest
          · exact List.mem_cons_of_mem d
              (ih rest (by simpa using Nat.le_of_succ_le_succ (by simpa using hs)) (some d) c hmemr)
      · rw [sub1R_cons_noboundary (by simpa using hb)] at hc
        rcases List.mem_cons.mp hc with rfl | hmemr
        · exact List.mem_cons_self c rest
        · exact List.mem_cons_of_mem d
            (ih rest (by simpa using Nat.le_of_succ_le_succ (by simpa using hs)) (some d) c hmemr)

theorem sub1R_subset {s : List Char} {prev : Option Char} {c : Char}
    (h : c ∈ sub1R prev s) : c ∈ s :=
  sub1R_subset_aux s.length s le_rfl prev c h

/-- After a whitespace character was just emitted, the collapsed tail never
starts with whitespace. -/
theorem sub3Aux_head_not_space (s : List Char) :
    ∀ c : Char, (sub3Aux true s).head? = some c → isSpaceChar c = false := by
  induction s with
  | nil => intro c hc; simp [sub3Aux] at hc
  | cons d rest ih =>
    intro c hc
    by_cases hd : isSpaceChar d = true
    · rw [show sub3Aux true (d :: rest) = sub3Aux true rest by simp [sub3Aux, hd]] at hc
      exact ih c hc
    · rw [show sub3Aux true (d :: rest) = d :: sub3Aux false rest by
          simp [sub3Aux, hd]] at hc
      simp only [List.head?_cons, Option.some.injEq] at hc
      subst hc
      simpa using hd

/-- The collapsed output never has two adjacent whitespace characters. -/
theorem sub3Aux_chain (s : List Char) : ∀ b : Bool,
    List.Chain' (fun a b => isSpaceChar a = false ∨ isSpaceChar b = false) (sub3Aux b s) := by
  induction s with
  | nil => intro b; simp [sub3Aux]
  | cons d rest ih =>
    intro b
    by_cases hd : isSpaceChar d = true
    · cases b with
      | true =>
        rw [show sub3Aux true (d :: rest) = sub3Aux true rest by simp [sub3Aux, hd]]
        exact ih true
      | false =>
        rw [show sub3Aux false (d :: rest) = ' ' :: sub3Aux true rest by simp [sub3Aux, hd]]
        rw [List.chain'_cons']
        exact ⟨fun y hy => Or.inr (sub3Aux_head_not_space rest y hy), ih true⟩
    · rw [show sub3Aux b (d :: rest) = d :: sub3Aux false rest by simp [sub3Aux, hd]]
      rw [List.chain'_cons']
      exact ⟨fun y _ => Or.inl (by simpa using hd), ih false⟩

theorem getLast?_of_suffix {l' l : List Char} (h : l' <:+ l) (hne : l' ≠ []) :
    l'.getLast? = l.getLast? := by
  obtain ⟨pre, rfl⟩ := h
  rw [List.getLast?_append]
  cases hg : l'.getLast? with
  | none => exact absurd (List.getLast?_eq_none_iff.mp hg) hne
  | some x => rfl

theorem head_not_of_dropWhile {p : Char → Bool} (l : List Char) {c : Char}
    (h : (l.dropWhile p).head? = some c) : p c = false := by
  cases heq : l.dropWhile p with
  | nil => rw [heq] at h; simp at h
  | cons d r =>
    rw [heq] at h
    simp only [List.head?_cons, Option.some.injEq] at h
    subst h
    exact dropWhile_head_not heq

theorem pyStrip_head_not_space (u : List Char) {c : Char}
    (h : (pyStrip u).head? = some c) : isSpaceChar c = false := by
  unfold pyStrip at h
  rw [List.head?_reverse] at h
  have hne : (u.dropWhile isSpaceChar).reverse.dropWhile isSpaceChar ≠ [] := by
    intro hz
    rw [hz] at h
    simp at h
  rw [getLast?_of_suffix (List.dropWhile_suffix isSpaceChar) hne,
    List.getLast?_reverse] at h
  exact head_not_of_dropWhile u h

theorem pyStrip_getLast_not_space (u : List Char) {c : Char}
    (h : (pyStrip u).getLast? = some c) : isSpaceChar c = false := by
  unfold pyStrip at h
  rw [List.getLast?_reverse] at h
  exact head_not_of_dropWhile _ h

theorem pyStrip_chain {R : Char → Char → Prop} (hsymm : ∀ a b, R a b → R b a)
    {s : List Char} (h : List.Chain' R s) : List.Chain' R (pyStrip s) := by
  unfold pyStrip
  have h1 : List.Chain' R (s.dropWhile isSpaceChar) :=
    h.suffix (List.dropWhile_suffix isSpaceChar)
  have h2 : List.Chain' R ((s.dropWhile isSpaceChar).reverse) :=
    List.chain'_reverse.mpr (h1.imp fun {a b} hab => hsymm a b hab)
  have h3 : List.Chain' R (((s.dropWhile isSpaceChar).reverse).dropWhile isSpaceChar) :=
    h2.suffix (List.dropWhile_suffix isSpaceChar)
  exact List.chain'_reverse.mpr (h3.imp fun {a b} hab => hsymm a b hab)

/-! ### Identity of the later passes on canonical strings -/

theorem sub2_id (t : List Char)
    (h : ∀ c ∈ t, isWordChar c = true ∨ isSpaceChar c = true) : sub2 t = t := by
  induction t with
  | nil => rfl
  | cons c rest ih =>
    rw [sub2_cons, ih fun d hd => h d (List.mem_cons_of_mem c hd)]
    have hc := h c (List.mem_cons_self c rest)
    rcases hc with hc | hc <;> simp [hc]

theorem sub3Aux_id (t : List Char) : ∀ b : Bool,
    List.Chain' (fun a b => isSpaceChar a = false ∨ isSpaceChar b = false) t →
    (∀ c ∈ t, isSpaceChar c = true → c = ' ') →
    (b = true → ∀ c, t.head? = some c → isSpaceChar c = false) →
    sub3Aux b t = t := by
  induction t with
  | nil => intro b _ _ _; rfl
  | cons d rest ih =>
    intro b hch hsp hb
    by_cases hd : isSpaceChar d = true
    · cases b with
      | true => exact absurd hd (by simpa using hb rfl d rfl)
      | false =>
        rw [show sub3Aux false (d :: rest) = ' ' :: sub3Aux true rest by simp [sub3Aux, hd]]
        have hd' : d = ' ' := hsp d (List.mem_cons_self d rest) hd
        have hhead : ∀ c, rest.head? = some c → isSpaceChar c = false := by
          intro c hc
          rcases (List.chain'_cons'.mp hch).1 c hc with h | h
          · exact absurd hd (by simpa using h)
          · exact h
        rw [ih true (List.chain'_cons'.mp hch).2
          (fun c hc => hsp c (List.mem_cons_of_mem d hc)) (fun _ => hhead), hd']
    · rw [show sub3Aux b (d :: rest) = d :: sub3Aux false rest by simp [sub3Aux, hd]]
      rw [ih false (List.chain'_cons'.mp hch).2
        (fun c hc => hsp c (List.mem_cons_of_mem d hc)) (fun hfalse => by simp at hfalse)]

theorem dropWhile_eq_self_of_head {p : Char → Bool} (l : List Char)
    (h : ∀ c, l.head? = some c → p c = false) : l.dropWhile p = l := by
  cases l with
  | nil => rfl
  | cons d r => rw [List.dropWhile_cons, if_neg (by simp [h d rfl])]

theorem pyStrip_id (t : List Char)
    (h1 : ∀ c, t.head? = some c → isSpaceChar c = false)
    (h2 : ∀ c, t.getLast? = some c → isSpaceChar c = false) : pyStrip t = t := by
  unfold pyStrip
  rw [dropWhile_eq_self_of_head t h1,
    dropWhile_eq_self_of_head t.reverse
      (fun c hc => h2 c (by rwa [List.head?_reverse] at hc)),
    List.reverse_reverse]

/-! ### The maximal word runs survive collapsing and stripping -/

theorem takeWhile_eq_nil_of_head {p : Char → Bool} {l : List Char}
    (h : ∀ c, l.head? = some c → p c = false) : l.takeWhile p = [] := by
  cases l with
  | nil => rfl
  | cons d r => rw [List.takeWhile_cons, if_neg (by simp [h d rfl])]

theorem sub3Aux_append_nonspace (w v : List Char) (h : ∀ c ∈ w, isSpaceChar c = false) :
    sub3Aux false (w ++ v) = w ++ sub3Aux false v := by
  induction w with
  | nil => simp
  | cons c rest ih =>
    have hc := h c (List.mem_cons_self c rest)
    rw [List.cons_append,
      show sub3Aux false (c :: (rest ++ v)) = c :: sub3Aux false (rest ++ v) by
        simp [sub3Aux, hc],
      ih fun d hd => h d (List.mem_cons_of_mem c hd), List.cons_append]

theorem sub3Aux_false_head_status {dw : List Char}
    (hd : ∀ c, dw.head? = some c → isWordChar c = false) :
    ∀ c, (sub3Aux false dw).head? = some c → isWordChar c = false := by
  cases dw with
  | nil => intro c hc; simp [sub3Aux] at hc
  | cons e r =>
    intro c hc
    have he : isWordChar e = false := hd e rfl
    by_cases hes : isSpaceChar e = true
    · rw [show sub3Aux false (e :: r) = ' ' :: sub3Aux true r by simp [sub3Aux, hes]] at hc
      simp only [List.head?_cons, Option.some.injEq] at hc
      subst hc
      decide
    · rw [show sub3Aux false (e :: r) = e :: sub3Aux false r by simp [sub3Aux, hes]] at hc
      simp only [List.head?_cons, Option.some.injEq] at hc
      subst hc
      exact he

theorem wordRuns_sub3Aux (s : List Char) : ∀ b, wordRuns (sub3Aux b s) = wordRuns s := by
  induction s using wordRuns.induct with
  | case1 => intro b; rfl
  | case2 c rest hc ih =>
    intro b
    have hcs : isSpaceChar c = false := wordChar_not_spaceChar hc
    rw [show sub3Aux b (c :: rest) = c :: sub3Aux false rest by simp [sub3Aux, hcs]]
    have htw_word : ∀ x ∈ rest.takeWhile isWordChar, isWordChar x = true :=
      fun x hx => List.mem_takeWhile_imp hx
    have hs3 : sub3Aux false rest =
        rest.takeWhile isWordChar ++ sub3Aux false (rest.dropWhile isWordChar) := by
      conv_lhs => rw [← List.takeWhile_append_dropWhile (p := isWordChar) (l := rest)]
      exact sub3Aux_append_nonspace _ _ fun x hx => wordChar_not_spaceChar (htw_word x hx)
    have hY_head := sub3Aux_false_head_status
      (fun x hx => head_not_of_dropWhile rest hx)
    rw [hs3, wordRuns_cons_word _ hc, wordRuns_cons_word _ hc,
      takeWhile_append_of_all _ htw_word, dropWhile_append_of_all _ htw_word,
      takeWhile_eq_nil_of_head hY_head, dropWhile_eq_self_of_head _ hY_head,
      List.append_nil, ih false]
  | case3 c rest hc ih =>
    intro b
    have hc' : isWordChar c = false := by simpa using hc
    rw [wordRuns_cons_notword _ hc']
    by_cases hcs : isSpaceChar c = true
    · cases b with
      | true =>
        rw [show sub3Aux true (c :: rest) = sub3Aux true rest by simp [sub3Aux, hcs]]
        exact ih true
      | false =>
        rw [show sub3Aux false (c :: rest) = ' ' :: sub3Aux true rest by simp [sub3Aux, hcs],
          wordRuns_cons_notword _ (by decide)]
        exact ih true
    · rw [show sub3Aux b (c :: rest) = c :: sub3Aux false rest by simp [sub3Aux, hcs],
        wordRuns_cons_notword _ hc']
      exact ih false

theorem wordRuns_eq_nil_of_notword (v : List Char) (h : ∀ c ∈ v, isWordChar c = false) :
    wordRuns v = [] := by
  induction v with
  | nil => exact wordRuns_nil
  | cons c rest ih =>
    rw [wordRuns_cons_notword _ (h c (List.mem_cons_self c rest))]
    exact ih fun d hd => h d (List.mem_cons_of_mem c hd)

theorem wordRuns_append_notword (u : List Char) {v : List Char}
    (hv : ∀ c ∈ v, isWordChar c = false) : wordRuns (u ++ v) = wordRuns u := by
  induction u using wordRuns.induct with
  | case1 =>
    rw [List.nil_append, wordRuns_nil]
    exact wordRuns_eq_nil_of_notword v hv
  | case2 c rest hc ih =>
    have htw_word : ∀ x ∈ rest.takeWhile isWordChar, isWordChar x = true :=
      fun x hx => List.mem_takeWhile_imp hx
    have hhead : ∀ x, ((rest.dropWhile isWordChar) ++ v).head? = some x →
        isWordChar x = false := by
      intro x hx
      cases heq : rest.dropWhile isWordChar with
      | nil =>
        rw [heq, List.nil_append] at hx
        cases v with
        | nil => simp at hx
        | cons e r =>
          simp only [List.head?_cons, Option.some.injEq] at hx
          subst hx
          exact hv _ (List.mem_cons_self _ r)
      | cons e r =>
        rw [heq, List.cons_append] at hx
        simp only [List.head?_cons, Option.some.injEq] at hx
        subst hx
        exact dropWhile_head_not heq
    have hsplit : rest ++ v =
        rest.takeWhile isWordChar ++ ((rest.dropWhile isWordChar) ++ v) := by
      rw [← List.append_assoc, List.takeWhile_append_dropWhile]
    rw [List.cons_append, wordRuns_cons_word _ hc, wordRuns_cons_word _ hc, hsplit,
      takeWhile_append_of_all _ htw_word, dropWhile_append_of_all _ htw_word,
      takeWhile_eq_nil_of_head hhead, dropWhile_eq_self_of_head _ hhead,
      List.append_nil, ih]
  | case3 c rest hc ih =>
    have hc' : isWordChar c = false := by simpa using hc
    rw [List.cons_append, wordRuns_cons_notword _ hc', wordRuns_cons_notword _ hc']
    exact ih

theorem wordRuns_dropWhile_space (s : List Char) :
    wordRuns (s.dropWhile isSpaceChar) = wordRuns s := by
  induction s with
  | nil => rfl
  | cons d rest ih =>
    by_cases hd : isSpaceChar d = true
    · rw [List.dropWhile_cons, if_pos (by simp [hd]), ih,
        wordRuns_cons_notword _ (spaceChar_not_wordChar hd)]
    · rw [List.dropWhile_cons, if_neg (by simp [hd])]

theorem wordRuns_pyStrip (s : List Char) : wordRuns (pyStrip s) = wordRuns s := by
  unfold pyStrip
  rw [← wordRuns_dropWhile_space s]
  have hw : s.dropWhile isSpaceChar =
      ((s.dropWhile isSpaceChar).reverse.dropWhile isSpaceChar).reverse ++
        ((s.dropWhile isSpaceChar).reverse.takeWhile isSpaceChar).reverse := by
    conv_lhs => rw [← List.reverse_reverse (s.dropWhile isSpaceChar),
      ← List.takeWhile_append_dropWhile
        (p := isSpaceChar) (l := (s.dropWhile isSpaceChar).reverse)]
    rw [List.reverse_append]
  conv_rhs => rw [hw]
  rw [wordRuns_append_notword]
  intro c hc
  rw [List.mem_reverse] at hc
  exact spaceChar_not_wordChar (List.mem_takeWhile_imp hc)

theorem sub2_mem (X : List Char) : ∀ c ∈ sub2 X, c = ' ' ∨ c ∈ X := by
  intro c hc
  obtain ⟨d, hd, rfl⟩ := List.mem_map.mp hc
  by_cases h : (isWordChar d || isSpaceChar d) = true
  · rw [if_pos h]; exact Or.inr hd
  · rw [if_neg h]; exact Or.inl rfl

/-! ### The scan is the identity on canonical strings -/

theorem suffix_alts_split : ∀ a ∈ SUFFIX_ALTS, a ∈ LETTER_ALTS ∨ a = ['t','.','z','.'] := by
  decide

theorem letter_alts_word : ∀ a ∈ LETTER_ALTS, ∀ c ∈ a, isWordChar c = true := by decide

/-- At the start of a maximal word run that is not itself a letter
alternative, in a string of word characters and spaces, no alternative of
the suffix pattern can match. -/
theorem findAlt_none_at_run_start {c : Char} {rest : List Char}
    (hc : isWordChar c = true)
    (hall : ∀ x ∈ c :: rest, isWordChar x = true ∨ x = ' ')
    (hrun : (c :: rest.takeWhile isWordChar) ∉ LETTER_ALTS) :
    findAlt SUFFIX_ALTS (c :: rest) = none := by
  cases hf : findAlt SUFFIX_ALTS (c :: rest) with
  | none => rfl
  | some p =>
    exfalso
    obtain ⟨a, rest'⟩ := p
    obtain ⟨hmem, hpre, hdrop, hb⟩ := findAlt_eq_some hf
    have hpre' : a <+: (c :: rest) := List.isPrefixOf_iff_prefix.mp hpre
    rcases suffix_alts_split a hmem with hA | hTZ
    · have hRpre : (c :: rest.takeWhile isWordChar) <+: (c :: rest) := by
        refine ⟨rest.dropWhile isWordChar, ?_⟩
        rw [List.cons_append, List.takeWhile_append_dropWhile]
      have hRword : ∀ x ∈ c :: rest.takeWhile isWordChar, isWordChar x = true := by
        intro x hx
        rcases List.mem_cons.mp hx with rfl | hx
        · exact hc
        · exact List.mem_takeWhile_imp hx
      have haword := letter_alts_word a hA
      have hane : a ≠ [] := alts_ne_nil a hmem
      rcases lt_trichotomy a.length (c :: rest.takeWhile isWordChar).length
        with hlt | heq | hgt
      · -- the alternative ends strictly inside the run: trailing \b fails
        obtain ⟨u, hu⟩ :=
          List.prefix_of_prefix_length_le hpre' hRpre (Nat.le_of_lt hlt)
        have hune : u ≠ [] := by
          intro hz
          rw [hz, List.append_nil] at hu
          rw [hu] at hlt
          exact lt_irrefl _ hlt
        have hsplit : c :: rest = a ++ (u ++ rest.dropWhile isWordChar) := by
          rw [← List.append_assoc, hu, List.cons_append, List.takeWhile_append_dropWhile]
        have hdrop2 : (c :: rest).drop a.length = u ++ rest.dropWhile isWordChar := by
          conv_lhs => rw [hsplit]
          exact List.drop_left a _
        cases u with
        | nil => exact hune rfl
        | cons e u' =>
          have he_word : isWordChar e = true := by
            apply hRword
            rw [← hu]
            exact List.mem_append_right a (List.mem_cons_self e u')
          cases hlast : a.getLast? with
          | none => exact hane (List.getLast?_eq_none_iff.mp hlast)
          | some la =>
            have hla_word : isWordChar la = true :=
              haword la (List.mem_of_getLast?_eq_some hlast)
            rw [hdrop, hdrop2] at hb
            rw [show headOpt ((e :: u') ++ rest.dropWhile isWordChar) = some e from rfl,
              hlast] at hb
            rw [show boundary (some la) (some e) = (isWordChar la != isWordChar e) from rfl,
              hla_word, he_word] at hb
            simp at hb
      · -- the alternative is exactly the run: the run would be a letter alternative
        exact hrun (by
          rw [← (List.prefix_of_prefix_length_le hpre' hRpre (Nat.le_of_eq heq)).eq_of_length heq]
          exact hA)
      · -- the alternative overruns the run: its next character cannot be a word character
        have hRa : (c :: rest.takeWhile isWordChar) <+: a :=
          List.prefix_of_prefix_length_le hRpre hpre' (Nat.le_of_lt hgt)
        obtain ⟨w, hw⟩ := hRa
        have hwne : w ≠ [] := by
          intro hz
          rw [hz, List.append_nil] at hw
          rw [hw] at hgt
          exact lt_irrefl _ hgt
        have hwpre : w <+: rest.dropWhile isWordChar := by
          have h1 : (c :: rest.takeWhile isWordChar) ++ w <+:
              (c :: rest.takeWhile isWordChar) ++ rest.dropWhile isWordChar := by
            rw [hw, List.cons_append, List.takeWhile_append_dropWhile]
            exact hpre'
          exact (List.prefix_append_right_inj _).mp h1
        cases w with
        | nil => exact hwne rfl
        | cons e w' =>
          have he_word : isWordChar e = true := by
            apply haword
            rw [← hw]
            exact List.mem_append_right _ (List.mem_cons_self e w')
          obtain ⟨z, hz⟩ := hwpre
          have : isWordChar e = false := by
            apply dropWhile_head_not (l := rest)
            rw [← hz, List.cons_append]
          rw [he_word] at this
          exact Bool.true_eq_false.mp this
    · -- the t.z. alternative contains '.', which is neither word nor space
      subst hTZ
      have hdot : ('.' : Char) ∈ c :: rest := hpre'.subset (by decide)
      rcases hall '.' hdot with h | h
      · exact absurd h (by decide)
      · exact absurd h (by decide)

/-- The suffix scan leaves a canonical string (word characters and single
spaces, no run equal to a letter alternative) unchanged, starting from any
non-word previous character. -/
theorem sub1R_id_canon : ∀ (n : Nat) (t : List Char), t.length ≤ n →
    (∀ c ∈ t, isWordChar c = true ∨ c = ' ') →
    (∀ r ∈ wordRuns t, r ∉ LETTER_ALTS) →
    ∀ prev : Option Char, isWordCharO prev = false →
    sub1R prev t = t := by
  intro n
  induction n with
  | zero =>
    intro t ht _ _ prev _
    have hz : t = [] := List.length_eq_zero.mp (Nat.le_zero.mp ht)
    subst hz
    exact sub1R_nil prev
  | succ n ih =>
    intro t ht hall hruns prev hprev
    cases t with
    | nil => exact sub1R_nil prev
    | cons c rest =>
      have hlen_rest : rest.length ≤ n := by
        simp only [List.length_cons] at ht
        omega
      rcases hall c (List.mem_cons_self c rest) with hc | hc
      · -- start of a word run
        have hb : boundary prev (some c) = true := by
          show (isWordCharO prev != isWordCharO (some c)) = true
          rw [hprev, isWordCharO_some, hc]
          rfl
        have hf : findAlt SUFFIX_ALTS (c :: rest) = none := by
          apply findAlt_none_at_run_start hc hall
          apply hruns
          rw [wordRuns_cons_word _ hc]
          exact List.mem_cons_self _ _
        rw [sub1R_cons_nomatch hb hf]
        obtain ⟨w', hw', hcopy⟩ := sub1R_copy_word rest c hc
        rw [hcopy]
        have hdw : sub1R (some w') (rest.dropWhile isWordChar) =
            rest.dropWhile isWordChar := by
          cases hdweq : rest.dropWhile isWordChar with
          | nil => exact sub1R_nil _
          | cons d v =>
            have hd_nw : isWordChar d = false := dropWhile_head_not hdweq
            have hd_mem : d ∈ c :: rest := by
              apply List.mem_cons_of_mem
              apply (List.dropWhile_sublist isWordChar).mem
              rw [hdweq]
              exact List.mem_cons_self d v
            have hd_sp : d = ' ' := by
              rcases hall d hd_mem with h | h
              · rw [hd_nw] at h
                exact absurd h (by simp)
              · exact h
            subst hd_sp
            have hb2 : boundary (some w') (some ' ') = true := by
              show (isWordCharO (some w') != isWordCharO (some ' ')) = true
              rw [isWordCharO_some, hw']
              rfl
            have hf2 : findAlt SUFFIX_ALTS (' ' :: v) = none :=
              findAlt_none_of_head_not_word rfl
            rw [sub1R_cons_nomatch hb2 hf2]
            congr 1
            have hv_len : v.length ≤ n := by
              have h1 : (rest.dropWhile isWordChar).length ≤ rest.length :=
                (List.dropWhile_sublist isWordChar).length_le
              rw [hdweq] at h1
              simp only [List.length_cons] at h1
              omega
            have hv_sub : ∀ x ∈ v, x ∈ c :: rest := by
              intro x hx
              apply List.mem_cons_of_mem
              apply (List.dropWhile_sublist isWordChar).mem
              rw [hdweq]
              exact List.mem_cons_of_mem _ hx
            apply ih v hv_len (fun x hx => hall x (hv_sub x hx))
              (fun r hr => ?_) (some ' ') rfl
            apply hruns
            rw [wordRuns_cons_word _ hc, hdweq]
            apply List.mem_cons_of_mem
            rwa [wordRuns_cons_notword _ (by decide)]
        rw [hdw, List.takeWhile_append_dropWhile]
      · -- a separating space is copied
        subst hc
        have hb : boundary prev (some ' ') = false := by
          show (isWordCharO prev != isWordCharO (some ' ')) = false
          rw [hprev]
          rfl
        rw [sub1R_cons_noboundary hb]
        congr 1
        apply ih rest hlen_rest (fun x hx => hall x (List.mem_cons_of_mem _ hx))
          (fun r hr => hruns r (by rwa [wordRuns_cons_notword _ (by decide)])) (some ' ') rfl

/-! ### Idempotence of the normalizer -/

/-- The character-level pipeline of `normalize_company_name` between
lowercasing and title-casing. -/
def normPipe (s1 : List Char) : List Char := pyStrip (sub3Aux false (sub2 (sub1 s1)))

theorem normalize_eq_pipe (n : String) (hn : ¬(n = "")) :
    normalize_company_name (some n) =
      if pyTitleAux false (normPipe (n.data.map pyLowerChar)) = [] then "Unknown"
      else String.mk (pyTitleAux false (normPipe (n.data.map pyLowerChar))) := by
  simp only [normalize_company_name, normPipe, if_neg hn]

theorem normPipe_chars (s1 : List Char) :
    ∀ c ∈ normPipe s1, isWordChar c = true ∨ c = ' ' := by
  intro c hc
  unfold normPipe at hc
  rcases sub3Aux_chars (sub2 (sub1 s1)) false c (pyStrip_subset hc) with h | ⟨hm, hns⟩
  · exact Or.inr h
  · rcases sub2_chars (sub1 s1) c hm with h | h
    · exact Or.inl h
    · rw [hns] at h
      exact absurd h (by simp)

theorem normPipe_runs (s1 : List Char) :
    ∀ r ∈ wordRuns (normPipe s1), r ∉ LETTER_ALTS := by
  intro r hr
  unfold normPipe at hr
  rw [wordRuns_pyStrip, wordRuns_sub3Aux _ false, wordRuns_sub2, sub1_eq_sub1R] at hr
  exact sub1R_runs_not_letter s1.length s1 le_rfl none (by simp [isWordCharO_none]) r hr

theorem normPipe_chain (s1 : List Char) :
    List.Chain' (fun a b => isSpaceChar a = false ∨ isSpaceChar b = false) (normPipe s1) :=
  pyStrip_chain (fun _ _ h => h.symm) (sub3Aux_chain _ false)

theorem normPipe_head (s1 : List Char) :
    ∀ c, (normPipe s1).head? = some c → isSpaceChar c = false := by
  intro c hc
  unfold normPipe at hc
  exact pyStrip_head_not_space _ hc

theorem normPipe_getLast (s1 : List Char) :
    ∀ c, (normPipe s1).getLast? = some c → isSpaceChar c = false := by
  intro c hc
  unfold normPipe at hc
  exact pyStrip_getLast_not_space _ hc

theorem normPipe_upper (s1 : List Char) (h1 : ∀ c ∈ s1, asciiUpper.contains c = false) :
    ∀ c ∈ normPipe s1, asciiUpper.contains c = false := by
  intro c hc
  unfold normPipe at hc
  rcases sub3Aux_chars _ false c (pyStrip_subset hc) with h | ⟨hm, _⟩
  · rw [h]; decide
  · rcases sub2_mem _ c hm with h | h
    · rw [h]; decide
    · rw [sub1_eq_sub1R] at h
      exact h1 c (sub1R_subset h)

/-- A nonempty title-cased canonical string is a fixed point of the
normalizer. -/
theorem normalize_fixed (s4 : List Char)
    (hchars : ∀ c ∈ s4, isWordChar c = true ∨ c = ' ')
    (hruns : ∀ r ∈ wordRuns s4, r ∉ LETTER_ALTS)
    (hchain : List.Chain' (fun a b => isSpaceChar a = false ∨ isSpaceChar b = false) s4)
    (hhead : ∀ c, s4.head? = some c → isSpaceChar c = false)
    (hlast : ∀ c, s4.getLast? = some c → isSpaceChar c = false)
    (hupper : ∀ c ∈ s4, asciiUpper.contains c = false)
    (hne : ¬(pyTitleAux false s4 = [])) :
    normalize_company_name (some (String.mk (pyTitleAux false s4))) =
      String.mk (pyTitleAux false s4) := by
  have hstr : ¬(String.mk (pyTitleAux false s4) = "") := by
    intro h
    exact hne (by simpa using congrArg String.data h)
  rw [normalize_eq_pipe _ hstr]
  have hdata : (String.mk (pyTitleAux false s4)).data = pyTitleAux false s4 := rfl
  have hspaces : ∀ c ∈ s4, isSpaceChar c = true → c = ' ' := by
    intro c hc hs
    rcases hchars c hc with h | h
    · rw [wordChar_not_spaceChar h] at hs
      exact absurd hs (by simp)
    · exact h
  have hpipe : normPipe s4 = s4 := by
    unfold normPipe
    rw [sub1_eq_sub1R, sub1R_id_canon s4.length s4 le_rfl hchars hruns none rfl,
      sub2_id s4 (fun c hc => (hchars c hc).imp_right
        (fun h => by rw [h]; decide)),
      sub3Aux_id s4 false hchain hspaces (fun h => absurd h (by simp)),
      pyStrip_id s4 hhead hlast]
  rw [hdata, map_lower_title s4 hupper false, hpipe, if_neg hne]

/-- C4: the name normalizer is idempotent — for every input `x`,
`normalize_company_name (some (normalize_company_name x)) =
normalize_company_name x` — and both the empty string and `None` map to the
sentinel `"Unknown"`. -/
theorem C4_normalizer_idempotent :
    (∀ x : Option String,
      normalize_company_name (some (normalize_company_name x)) =
        normalize_company_name x) ∧
    normalize_company_name (some "") = "Unknown" ∧
    normalize_company_name none = "Unknown" := by
  refine ⟨?_, by decide, by decide⟩
  intro x
  cases x with
  | none => decide
  | some n =>
    by_cases hn : n = ""
    · subst hn; decide
    · rw [normalize_eq_pipe n hn]
      by_cases ht : pyTitleAux false (normPipe (n.data.map pyLowerChar)) = []
      · rw [if_pos ht]; decide
      · rw [if_neg ht]
        have hupper1 : ∀ c ∈ n.data.map pyLowerChar, asciiUpper.contains c = false := by
          intro c hc
          obtain ⟨d, _, rfl⟩ := List.mem_map.mp hc
          exact pyLowerChar_not_upper d
        exact normalize_fixed (normPipe (n.data.map pyLowerChar))
          (normPipe_chars _) (normPipe_runs _) (normPipe_chain _)
          (normPipe_head _) (normPipe_getLast _) (normPipe_upper _ hupper1) ht
